import Mathlib

set_option maxHeartbeats 1000000

/-
Verification of the Maxwell-filter core (mne/preprocessing/maxwell.py):
shallow embedding of the windowing step, the pose-driven decomposition
cache, the column-normalized pseudoinverse, the tSSS subspace projector,
the internal/external regularization sweep, and the input-validation
helpers, together with proofs of the spec claims about them.

Numeric conventions: sample counts and sample indices are Nat; physical
quantities (times, singular values, matrix entries) are modelled in exact
arithmetic over the rationals.  External numeric routines that the code
calls out to (LAPACK SVD and QR, numpy sqrt, numpy log2) are represented
by their defining properties, passed as hypotheses or as explicit
function parameters.
-/

namespace MaxwellSpec

/-- Buffer boundary generation of maxwell_filter, numpy arange(0, stop, step)
for a positive step: the multiples of step below stop. -/
def arange (stop step : Nat) : List Nat :=
  (List.range ((stop + step - 1) / step)).map (fun i => i * step)

/-- Buffer boundaries read_lims of maxwell_filter: the nominal window length
st is first clamped to the sample count n; the boundaries are the multiples
of the clamped length up to n; a lone boundary is extended by n; and when the
final boundary falls short of n it is moved to n, which merges the trailing
remainder into the last buffer. -/
def read_lims (n st : Nat) : List Nat :=
  let d := min n st
  let rl0 := arange (n + 1) d
  let rl1 := if rl0.length = 1 then rl0 ++ [n] else rl0
  if rl1.getLastD 0 ≠ n then rl1.dropLast ++ [n] else rl1

/-- Slice of the pose records whose sample index lies in the buffer
[start, stop).  For a time-sorted record list this is exactly the
numpy searchsorted index range pos_idx used by trans_starts_stops_quats. -/
def winOf {α : Type} (recs : List (Nat × α)) (start stop : Nat) :
    List (Nat × α) :=
  (recs.dropWhile (fun r => decide (r.1 < start))).takeWhile
    (fun r => decide (r.1 < stop))

/-- Sub-intervals generated for the pose records inside one buffer (the
iterations with ti at least 0 in trans_starts_stops_quats): each record
yields the interval from its own sample to the next record, or to the buffer
end for the final record, tagged with the pose of that record. -/
def poseWindows {α : Type} (start stop : Nat) :
    List (Nat × α) → List (Option α × Nat × Nat)
  | [] => []
  | [r] => [(some r.2, r.1 - start, stop - start)]
  | r :: r2 :: rest =>
      (some r.2, r.1 - start, r2.1 - start) :: poseWindows start stop (r2 :: rest)

/-- Pose sub-intervals of one buffer [start, stop) as computed by
trans_starts_stops_quats: a leading interval carrying no pose record (trans
is none, meaning reuse the previous decomposition), skipped when the first
in-window record starts at the very first sample of the buffer, followed by
one interval per pose record inside the window. -/
def trans_starts_stops {α : Type} (recs : List (Nat × α)) (start stop : Nat) :
    List (Option α × Nat × Nat) :=
  match winOf recs start stop with
  | [] => [(none, 0, stop - start)]
  | r0 :: rest =>
      (if r0.1 - start = 0 then [] else [(none, 0, r0.1 - start)]) ++
        poseWindows start stop (r0 :: rest)

/-- Exact tiling of the half-open range [a, b) by a list of
(pose, start, stop) sub-intervals: the first starts at a, every interval is
nonempty, consecutive intervals are contiguous, and the last stops at b. -/
def tilesFrom {α : Type} : Nat → Nat → List (Option α × Nat × Nat) → Prop
  | a, b, [] => a = b
  | a, b, iv :: rest => iv.2.1 = a ∧ a < iv.2.2 ∧ tilesFrom iv.2.2 b rest

lemma mem_dropWhile_lt_ge {α : Type} (start : Nat) :
    ∀ (recs : List (Nat × α)),
      recs.Pairwise (fun a b => a.1 < b.1) →
      ∀ r ∈ recs.dropWhile (fun r => decide (r.1 < start)), start ≤ r.1 := by
  intro recs
  induction recs with
  | nil => simp
  | cons a l ih =>
      intro hp r hr
      rcases List.pairwise_cons.mp hp with ⟨ha, hl⟩
      rw [List.dropWhile_cons] at hr
      by_cases h : a.1 < start
      · simp only [h, decide_eq_true_eq, if_true, decide_True] at hr
        exact ih hl r hr
      · simp only [h, decide_eq_true_eq, if_false, decide_False] at hr
        rcases List.mem_cons.mp hr with rfl | hr
        · omega
        · exact le_of_lt (lt_of_le_of_lt (by omega) (ha r hr))

lemma mem_winOf_bounds {α : Type} (recs : List (Nat × α)) (start stop : Nat)
    (hp : recs.Pairwise (fun a b => a.1 < b.1)) :
    ∀ r ∈ winOf recs start stop, start ≤ r.1 ∧ r.1 < stop := by
  intro r hr
  have h1 : r.1 < stop := by
    have := List.mem_takeWhile_imp hr
    simpa using this
  have h2 : start ≤ r.1 := by
    have hmem : r ∈ recs.dropWhile (fun r => decide (r.1 < start)) :=
      (List.takeWhile_sublist _).mem hr
    exact mem_dropWhile_lt_ge start recs hp r hmem
  exact ⟨h2, h1⟩

lemma winOf_pairwise {α : Type} (recs : List (Nat × α)) (start stop : Nat)
    (hp : recs.Pairwise (fun a b => a.1 < b.1)) :
    (winOf recs start stop).Pairwise (fun a b => a.1 < b.1) :=
  List.Pairwise.sublist
    ((List.takeWhile_sublist _).trans (List.dropWhile_sublist _)) hp

lemma poseWindows_tiles {α : Type} (start stop : Nat) :
    ∀ (rest : List (Nat × α)) (r0 : Nat × α),
      (r0 :: rest).Pairwise (fun a b => a.1 < b.1) →
      (∀ r ∈ r0 :: rest, start ≤ r.1 ∧ r.1 < stop) →
      tilesFrom (r0.1 - start) (stop - start)
        (poseWindows start stop (r0 :: rest)) := by
  intro rest
  induction rest with
  | nil =>
      intro r0 _ hb
      rcases hb r0 (by simp) with ⟨h1, h2⟩
      refine ⟨rfl, ?_, rfl⟩
      show r0.1 - start < stop - start
      omega
  | cons r2 rest ih =>
      intro r0 hp hb
      rcases List.pairwise_cons.mp hp with ⟨h01, hp2⟩
      have hb0 := hb r0 (by simp)
      have hb2 := hb r2 (by simp)
      have h02 : r0.1 < r2.1 := h01 r2 (by simp)
      refine ⟨rfl, ?_, ?_⟩
      · show r0.1 - start < r2.1 - start
        omega
      · exact ih r2 hp2 (fun r hr => hb r (List.mem_cons_of_mem _ hr))

/-- Pose sub-intervals exactly tile every nonempty buffer: trans_starts_stops
covers [0, stop - start) once, with no gaps and no overlaps. -/
lemma trans_starts_stops_tiles {α : Type} (recs : List (Nat × α))
    (start stop : Nat) (h : start < stop)
    (hp : recs.Pairwise (fun a b => a.1 < b.1)) :
    tilesFrom 0 (stop - start) (trans_starts_stops recs start stop) := by
  unfold trans_starts_stops
  rcases hwin : winOf recs start stop with _ | ⟨r0, rest⟩
  · refine ⟨rfl, ?_, rfl⟩
    show (0 : Nat) < stop - start
    omega
  · have hpw := winOf_pairwise recs start stop hp
    have hbw := mem_winOf_bounds recs start stop hp
    rw [hwin] at hpw hbw
    have hfirst := hbw r0 (by simp)
    have htl := poseWindows_tiles start stop rest r0 hpw hbw
    by_cases h0 : r0.1 - start = 0
    · simp only [h0, if_pos rfl, List.nil_append]
      rw [h0] at htl
      exact htl
    · simp only [if_neg h0, List.singleton_append]
      refine ⟨rfl, ?_, htl⟩
      show (0 : Nat) < r0.1 - start
      omega

lemma arange_eq (n d : Nat) (hd : 0 < d) :
    arange (n + 1) d =
      (List.range (n / d)).map (fun i => i * d) ++ [n / d * d] := by
  unfold arange
  have h1 : n + 1 + d - 1 = n + d := by omega
  rw [h1, Nat.add_div_right _ hd, List.range_succ, List.map_append]
  rfl

/-- Closed form of the buffer boundaries: with n > 0 samples and a positive
nominal length, read_lims is the first n / d multiples of the clamped length
d = min n st followed by n itself. -/
lemma read_lims_eq (n st : Nat) (hn : 0 < n) (hst : 0 < st) :
    read_lims n st =
      (List.range (n / min n st)).map (fun i => i * min n st) ++ [n] := by
  have hd : 0 < min n st := by omega
  have hdn : min n st ≤ n := Nat.min_le_left n st
  set d := min n st with hdef
  have hk : 1 ≤ n / d := (Nat.one_le_div_iff hd).mpr hdn
  unfold read_lims
  simp only []
  rw [← hdef, arange_eq n d hd]
  have hlen : ((List.range (n / d)).map (fun i => i * d) ++ [n / d * d]).length
      = n / d + 1 := by simp
  rw [if_neg (show ¬((List.range (n / d)).map (fun i => i * d)
      ++ [n / d * d]).length = 1 by rw [hlen]; omega)]
  rw [List.getLastD_concat]
  by_cases hlast : n / d * d = n
  · rw [if_neg (show ¬(n / d * d ≠ n) from fun h => h hlast), hlast]
  · rw [if_pos hlast, List.dropLast_concat]

lemma read_lims_length (n st : Nat) (hn : 0 < n) (hst : 0 < st) :
    (read_lims n st).length = n / min n st + 1 := by
  rw [read_lims_eq n st hn hst]; simp

lemma read_lims_getD_lt (n st : Nat) (hn : 0 < n) (hst : 0 < st)
    (i : Nat) (hi : i < n / min n st) (dflt : Nat) :
    (read_lims n st).getD i dflt = i * min n st := by
  rw [read_lims_eq n st hn hst]
  rw [List.getD_append _ _ _ _ (by simpa using hi)]
  rw [List.getD_eq_getElem _ _ (by simpa using hi)]
  rw [List.getElem_map, List.getElem_range]

lemma read_lims_getD_last (n st : Nat) (hn : 0 < n) (hst : 0 < st)
    (dflt : Nat) :
    (read_lims n st).getD (n / min n st) dflt = n := by
  rw [read_lims_eq n st hn hst]
  rw [List.getD_append_right _ _ _ _ (by simp)]
  simp

/-- C1: for every recording of n > 0 samples and every positive nominal
buffer length st, the windowing step tiles [0, n) exactly: the boundary list
starts at 0, ends at n, the buffer count is n / st buffers (a single buffer
when n < st), every buffer is at least the effective length d = min n st and
shorter than 2 d (so a trailing remainder shorter than d is merged into the
previous buffer rather than emitted standalone), and inside every buffer the
pose sub-intervals produced by trans_starts_stops tile the buffer exactly
once, with no gaps and no overlaps. -/
theorem c1_windowing_tiles {α : Type} (n st : Nat) (recs : List (Nat × α))
    (hn : 0 < n) (hst : 0 < st)
    (hrec : recs.Pairwise (fun a b => a.1 < b.1)) :
    (read_lims n st).getD 0 1 = 0 ∧
    (read_lims n st).getLastD 0 = n ∧
    (read_lims n st).length - 1 = (if n < st then 1 else n / st) ∧
    (∀ i, i + 1 < (read_lims n st).length →
      min n st ≤ (read_lims n st).getD (i + 1) 0 - (read_lims n st).getD i 0 ∧
      (read_lims n st).getD (i + 1) 0 - (read_lims n st).getD i 0
        < 2 * min n st) ∧
    (∀ i, i + 1 < (read_lims n st).length →
      tilesFrom 0 ((read_lims n st).getD (i + 1) 0 - (read_lims n st).getD i 0)
        (trans_starts_stops recs
          ((read_lims n st).getD i 0) ((read_lims n st).getD (i + 1) 0))) := by
  have hd : 0 < min n st := by omega
  have hdn : min n st ≤ n := Nat.min_le_left n st
  have hk : 1 ≤ n / min n st := (Nat.one_le_div_iff hd).mpr hdn
  have hmod := Nat.div_add_mod n (min n st)
  have hmodlt : n % min n st < min n st := Nat.mod_lt n hd
  have hgap : ∀ i, i + 1 < (read_lims n st).length →
      min n st ≤ (read_lims n st).getD (i + 1) 0 - (read_lims n st).getD i 0 ∧
      (read_lims n st).getD (i + 1) 0 - (read_lims n st).getD i 0
        < 2 * min n st := by
    intro i hi
    rw [read_lims_length n st hn hst] at hi
    have hilt : i < n / min n st := by omega
    rw [read_lims_getD_lt n st hn hst i hilt]
    by_cases hi1 : i + 1 < n / min n st
    · rw [read_lims_getD_lt n st hn hst (i + 1) hi1]
      have : (i + 1) * min n st = i * min n st + min n st := by ring
      omega
    · have hieq : i + 1 = n / min n st := by omega
      rw [hieq, read_lims_getD_last n st hn hst]
      have h2 : min n st * (i + 1) + n % min n st = n := by
        rw [hieq]; exact hmod
      have h3 : min n st * (i + 1) = i * min n st + min n st := by ring
      omega
  refine ⟨?_, ?_, ?_, hgap, ?_⟩
  · have := read_lims_getD_lt n st hn hst 0 (by omega) 1
    simpa using this
  · rw [read_lims_eq n st hn hst, List.getLastD_concat]
  · rw [read_lims_length n st hn hst]
    by_cases hcase : n < st
    · have : min n st = n := by omega
      rw [if_pos hcase, this, Nat.div_self hn]
    · have : min n st = st := by omega
      rw [if_neg hcase, this]
      exact Nat.add_sub_cancel _ _
  · intro i hi
    have hlt : (read_lims n st).getD i 0 < (read_lims n st).getD (i + 1) 0 := by
      have := hgap i hi
      omega
    exact trans_starts_stops_tiles recs _ _ hlt hrec

/-- One buffer of the movement-compensation loop of maxwell_filter: the pose
sub-intervals are walked in order; a sub-interval whose trans is none reuses
the cached decomposition, while a sub-interval carrying a pose calls
get_decomp on that pose and replaces the cache.  A decomposition is
identified here by the pose it was computed from, get_decomp being a
deterministic function of the pose.  Returns the cache left after the
buffer, the list of poses passed to get_decomp, and the decomposition used
on each sub-interval. -/
def runIntervals {α : Type} (cached : α) :
    List (Option α × Nat × Nat) → α × List α × List α
  | [] => (cached, [], [])
  | iv :: rest =>
      match iv.1 with
      | none =>
          let r := runIntervals cached rest
          (r.1, r.2.1, cached :: r.2.2)
      | some p =>
          let r := runIntervals p rest
          (r.1, p :: r.2.1, p :: r.2.2)

/-- Sequential buffer processing of maxwell_filter: the cached decomposition
persists from one buffer to the next. -/
def runBuffers {α : Type} (recs : List (Nat × α)) (cached : α) :
    List (Nat × Nat) → α × List α × List α
  | [] => (cached, [], [])
  | bt :: bs =>
      let r1 := runIntervals cached (trans_starts_stops recs bt.1 bt.2)
      let r2 := runBuffers recs r1.1 bs
      (r2.1, r1.2.1 ++ r2.2.1, r1.2.2 ++ r2.2.2)

/-- Adjacent boundary pairs, the (start, stop) buffers of the main loop. -/
def bufPairs : List Nat → List (Nat × Nat)
  | [] => []
  | [_] => []
  | a :: b :: rest => (a, b) :: bufPairs (b :: rest)

/-- Decomposition-computation trace of maxwell_filter for a pose stream recs
over n samples with nominal buffer length st: get_decomp is called once up
front on dev_head_t (the initial pose, before the buffer loop) and then once
per pose sub-interval carrying a trans.  This models the movement
compensation loop; the tSSS-before-movecomp configuration would add one
further get_decomp call per buffer on the buffer-averaged pose, only
increasing the computation count.  First component: the poses passed to
get_decomp, in call order.  Second component: the decomposition used on
each pose sub-interval, in time order. -/
def mfTrace {α : Type} (initPose : α) (recs : List (Nat × α)) (n st : Nat) :
    List α × List α :=
  let r := runBuffers recs initPose (bufPairs (read_lims n st))
  (initPose :: r.2.1, r.2.2)

lemma runIntervals_poseWindows_computes {α : Type} (s t : Nat) :
    ∀ (w : List (Nat × α)) (cached : α),
      (runIntervals cached (poseWindows s t w)).2.1 = w.map (fun r => r.2) := by
  intro w
  induction w with
  | nil => intro cached; rfl
  | cons r w ih =>
      intro cached
      cases w with
      | nil => rfl
      | cons r2 rest =>
          simp only [poseWindows, runIntervals, List.map_cons]
          rw [ih]
          rfl

lemma runIntervals_trans_computes {α : Type} (recs : List (Nat × α))
    (s t : Nat) (cached : α) :
    (runIntervals cached (trans_starts_stops recs s t)).2.1
      = (winOf recs s t).map (fun r => r.2) := by
  unfold trans_starts_stops
  cases hwin : winOf recs s t with
  | nil => rfl
  | cons r0 rest =>
      by_cases h0 : r0.1 - s = 0
      · simp only [h0, if_pos rfl, List.nil_append]
        exact runIntervals_poseWindows_computes s t (r0 :: rest) cached
      · simp only [if_neg h0, List.singleton_append, runIntervals]
        exact runIntervals_poseWindows_computes s t (r0 :: rest) cached

lemma dropWhile_lt_zero {α : Type} :
    ∀ (l : List (Nat × α)), l.dropWhile (fun r => decide (r.1 < 0)) = l := by
  intro l
  cases l with
  | nil => rfl
  | cons a l => rw [List.dropWhile_cons, if_neg (by simp)]

lemma winOf_append {α : Type} (t u : Nat) (htu : t ≤ u) :
    ∀ (l : List (Nat × α)) (s : Nat), s ≤ t →
      l.Pairwise (fun a b => a.1 < b.1) →
      winOf l s t ++ winOf l t u = winOf l s u := by
  intro l
  induction l with
  | nil => intro s _ _; rfl
  | cons a l ih =>
      intro s hst hp
      rcases List.pairwise_cons.mp hp with ⟨_, hl⟩
      unfold winOf
      rw [List.dropWhile_cons, List.dropWhile_cons]
      by_cases h1 : a.1 < s
      · rw [if_pos (by simpa using h1), if_pos (by simp; omega)]
        exact ih s hst hl
      · by_cases h2 : a.1 < t
        · rw [if_neg (by simpa using h1), if_pos (by simpa using h2)]
          rw [List.takeWhile_cons, if_pos (by simpa using h2),
            List.takeWhile_cons, if_pos (by simp; omega)]
          rw [List.cons_append]
          congr 1
          have h3 := ih 0 (Nat.zero_le t) hl
          unfold winOf at h3
          rw [dropWhile_lt_zero] at h3
          exact h3
        · rw [if_neg (by simpa using h1), if_neg (by simpa using h2)]
          rw [List.takeWhile_cons, if_neg (by simpa using h2),
            List.nil_append]

lemma winOf_self {α : Type} (l : List (Nat × α)) (b : Nat)
    (hp : l.Pairwise (fun a b => a.1 < b.1)) : winOf l b b = [] := by
  unfold winOf
  cases hd : l.dropWhile (fun r => decide (r.1 < b)) with
  | nil => rfl
  | cons x xs =>
      have hx : b ≤ x.1 := by
        apply mem_dropWhile_lt_ge b l hp
        rw [hd]; simp
      rw [List.takeWhile_cons, if_neg (by simp; omega)]

lemma getLastD_cons_cons {α : Type} (a b : α) (l : List α) (d : α) :
    (a :: b :: l).getLastD d = (b :: l).getLastD d := rfl

lemma chain_le_getLastD :
    ∀ (B : List Nat) (b : Nat), (b :: B).Chain' (· ≤ ·) →
      b ≤ (b :: B).getLastD 0 := by
  intro B
  induction B with
  | nil => intro b _; simp
  | cons b2 B ih =>
      intro b hch
      rcases List.chain'_cons.mp hch with ⟨h1, h2⟩
      rw [getLastD_cons_cons]
      exact le_trans h1 (ih b2 h2)

lemma runBuffers_computes {α : Type} (recs : List (Nat × α))
    (hp : recs.Pairwise (fun a b => a.1 < b.1)) :
    ∀ (B : List Nat) (b : Nat) (cached : α), (b :: B).Chain' (· ≤ ·) →
      (runBuffers recs cached (bufPairs (b :: B))).2.1 =
        (winOf recs b ((b :: B).getLastD 0)).map (fun r => r.2) := by
  intro B
  induction B with
  | nil =>
      intro b cached _
      rw [show ([b] : List Nat).getLastD 0 = b from rfl,
        winOf_self recs b hp]
      rfl
  | cons b2 B ih =>
      intro b cached hch
      rcases List.chain'_cons.mp hch with ⟨h1, h2⟩
      simp only [bufPairs, runBuffers]
      rw [runIntervals_trans_computes recs b b2 cached,
        ih b2 _ h2, getLastD_cons_cons, ← List.map_append,
        winOf_append _ _ (chain_le_getLastD B b2 h2) recs b h1 hp]

lemma takeWhile_lt_eq_filter {α : Type} (n : Nat) :
    ∀ (l : List (Nat × α)), l.Pairwise (fun a b => a.1 < b.1) →
      l.takeWhile (fun r => decide (r.1 < n))
        = l.filter (fun r => decide (r.1 < n)) := by
  intro l
  induction l with
  | nil => intro _; rfl
  | cons a l ih =>
      intro hp
      rcases List.pairwise_cons.mp hp with ⟨ha, hl⟩
      rw [List.takeWhile_cons, List.filter_cons]
      by_cases h : a.1 < n
      · rw [if_pos (by simpa using h), if_pos (by simpa using h), ih hl]
      · rw [if_neg (by simpa using h), if_neg (by simpa using h)]
        have : l.filter (fun r => decide (r.1 < n)) = [] := by
          rw [List.filter_eq_nil]
          intro r hr
          have := ha r hr
          simp
          omega
        rw [this]

lemma read_lims_pairwise (n st : Nat) (hn : 0 < n) (hst : 0 < st) :
    (read_lims n st).Pairwise (· < ·) := by
  have hd : 0 < min n st := by omega
  rw [read_lims_eq n st hn hst]
  apply List.pairwise_append.mpr
  refine ⟨?_, by simp, ?_⟩
  · rw [List.pairwise_map]
    exact (List.pairwise_lt_range _).imp
      (fun h => (Nat.mul_lt_mul_right hd).mpr h)
  · intro x hx y hy
    rw [List.mem_singleton] at hy
    rw [hy]
    rcases List.mem_map.mp hx with ⟨i, hi, rfl⟩
    have hilt := List.mem_range.mp hi
    exact lt_of_lt_of_le ((Nat.mul_lt_mul_right hd).mpr hilt)
      (Nat.div_mul_le_self n _)

lemma read_lims_chain_le (n st : Nat) (hn : 0 < n) (hst : 0 < st) :
    (read_lims n st).Chain' (· ≤ ·) := by
  rw [List.chain'_iff_pairwise]
  exact (read_lims_pairwise n st hn hst).imp le_of_lt

lemma read_lims_head (n st : Nat) (hn : 0 < n) (hst : 0 < st) :
    ∃ T, read_lims n st = 0 :: T := by
  rw [read_lims_eq n st hn hst]
  have hd : 0 < min n st := by omega
  have hk : 1 ≤ n / min n st :=
    (Nat.one_le_div_iff hd).mpr (Nat.min_le_left n st)
  obtain ⟨k, hkeq⟩ : ∃ k, n / min n st = k + 1 := ⟨n / min n st - 1, by omega⟩
  rw [hkeq, List.range_succ_eq_map, List.map_cons, List.cons_append]
  exact ⟨_, by rw [Nat.zero_mul]⟩

/-- Poses passed to get_decomp over the whole run: the initial pose followed
by the pose of every record that lands inside the recording, in time order;
one get_decomp call happens per pose record, whether or not the pose value
changed. -/
lemma mfTrace_computes {α : Type} (initPose : α) (recs : List (Nat × α))
    (n st : Nat) (hn : 0 < n) (hst : 0 < st)
    (hrec : recs.Pairwise (fun a b => a.1 < b.1)) :
    (mfTrace initPose recs n st).1 =
      initPose ::
        (recs.filter (fun r => decide (r.1 < n))).map (fun r => r.2) := by
  obtain ⟨T, hT⟩ := read_lims_head n st hn hst
  have hch : (0 :: T).Chain' (· ≤ ·) := by
    rw [← hT]; exact read_lims_chain_le n st hn hst
  have hlast : ((0 : Nat) :: T).getLastD 0 = n := by
    rw [← hT, read_lims_eq n st hn hst, List.getLastD_concat]
  unfold mfTrace
  simp only []
  rw [hT, runBuffers_computes recs hrec T 0 initPose hch, hlast]
  unfold winOf
  rw [dropWhile_lt_zero, takeWhile_lt_eq_filter n recs hrec]

lemma runIntervals_const {α : Type} (p : α) :
    ∀ (ints : List (Option α × Nat × Nat)),
      (∀ iv ∈ ints, iv.1 = none ∨ iv.1 = some p) →
      (runIntervals p ints).1 = p ∧
      (∀ q ∈ (runIntervals p ints).2.1, q = p) ∧
      (∀ q ∈ (runIntervals p ints).2.2, q = p) := by
  intro ints
  induction ints with
  | nil => exact fun _ => ⟨rfl, by simp [runIntervals], by simp [runIntervals]⟩
  | cons iv rest ih =>
      intro h
      have hiv := h iv (by simp)
      have hrest := ih (fun x hx => h x (List.mem_cons_of_mem _ hx))
      rcases hiv with hnone | hsome
      · simp only [runIntervals, hnone]
        refine ⟨hrest.1, hrest.2.1, ?_⟩
        intro q hq
        rcases List.mem_cons.mp hq with rfl | hq
        · rfl
        · exact hrest.2.2 q hq
      · simp only [runIntervals, hsome]
        refine ⟨hrest.1, ?_, ?_⟩
        · intro q hq
          rcases List.mem_cons.mp hq with rfl | hq
          · rfl
          · exact hrest.2.1 q hq
        · intro q hq
          rcases List.mem_cons.mp hq with rfl | hq
          · rfl
          · exact hrest.2.2 q hq

lemma poseWindows_poses {α : Type} (s t : Nat) :
    ∀ (w : List (Nat × α)) (iv : Option α × Nat × Nat),
      iv ∈ poseWindows s t w → ∃ r ∈ w, iv.1 = some r.2 := by
  intro w
  induction w with
  | nil => intro iv hiv; simp [poseWindows] at hiv
  | cons r w ih =>
      cases w with
      | nil =>
          intro iv hiv
          simp only [poseWindows, List.mem_singleton] at hiv
          subst hiv
          exact ⟨r, by simp, rfl⟩
      | cons r2 rest =>
          intro iv hiv
          simp only [poseWindows] at hiv
          rcases List.mem_cons.mp hiv with rfl | hiv
          · exact ⟨r, by simp, rfl⟩
          · rcases ih iv hiv with ⟨r3, hr3, h3⟩
            exact ⟨r3, List.mem_cons_of_mem _ hr3, h3⟩

lemma trans_starts_stops_poses {α : Type} (recs : List (Nat × α))
    (s t : Nat) :
    ∀ iv ∈ trans_starts_stops recs s t,
      iv.1 = none ∨ ∃ r ∈ recs, iv.1 = some r.2 := by
  intro iv hiv
  have hsub : ∀ r ∈ winOf recs s t, r ∈ recs := by
    intro r hr
    exact ((List.takeWhile_sublist _).trans (List.dropWhile_sublist _)).mem hr
  unfold trans_starts_stops at hiv
  cases hwin : winOf recs s t with
  | nil =>
      rw [hwin] at hiv
      rcases List.mem_singleton.mp hiv with rfl
      exact Or.inl rfl
  | cons r0 rest =>
      rw [hwin] at hiv
      rcases List.mem_append.mp hiv with hiv | hiv
      · by_cases h0 : r0.1 - s = 0
        · rw [if_pos h0] at hiv
          simp at hiv
        · rw [if_neg h0] at hiv
          rcases List.mem_singleton.mp hiv with rfl
          exact Or.inl rfl
      · rcases poseWindows_poses s t (r0 :: rest) iv hiv with ⟨r, hr, h⟩
        rw [hwin] at hsub
        exact Or.inr ⟨r, hsub r hr, h⟩

lemma runBuffers_const {α : Type} (recs : List (Nat × α)) (p : α)
    (hv : ∀ r ∈ recs, r.2 = p) :
    ∀ (bufs : List (Nat × Nat)),
      (runBuffers recs p bufs).1 = p ∧
      (∀ q ∈ (runBuffers recs p bufs).2.1, q = p) ∧
      (∀ q ∈ (runBuffers recs p bufs).2.2, q = p) := by
  intro bufs
  induction bufs with
  | nil => exact ⟨rfl, by simp [runBuffers], by simp [runBuffers]⟩
  | cons bt bs ih =>
      have hint : ∀ iv ∈ trans_starts_stops recs bt.1 bt.2,
          iv.1 = none ∨ iv.1 = some p := by
        intro iv hiv
        rcases trans_starts_stops_poses recs bt.1 bt.2 iv hiv with h | ⟨r, hr, h⟩
        · exact Or.inl h
        · right; rw [h, hv r hr]
      have h1 := runIntervals_const p (trans_starts_stops recs bt.1 bt.2) hint
      simp only [runBuffers]
      rw [h1.1]
      refine ⟨ih.1, ?_, ?_⟩
      · intro q hq
        rcases List.mem_append.mp hq with hq | hq
        · exact h1.2.1 q hq
        · exact ih.2.1 q hq
      · intro q hq
        rcases List.mem_append.mp hq with hq | hq
        · exact h1.2.2 q hq
        · exact ih.2.2 q hq

/-- C2 counterexample: a 20-sample recording processed in a single buffer,
with a pose stream holding the same pose value 5 at samples 0 and 10 (and
matching the initial pose), triggers three get_decomp computations, not one:
the code recomputes the decomposition for every pose record that arrives,
without comparing the new pose against the cached one, so a sub-interval
whose pose equals the pose of the previous sub-interval still recomputes. -/
theorem c2_single_pose_counterexample :
    (∀ r ∈ [((0 : Nat), (5 : Nat)), (10, 5)], r.2 = 5) ∧
    (mfTrace 5 [((0 : Nat), (5 : Nat)), (10, 5)] 20 20).1.length = 3 ∧
    ¬(mfTrace 5 [((0 : Nat), (5 : Nat)), (10, 5)] 20 20).1.length = 1 ∧
    (∀ q ∈ (mfTrace 5 [((0 : Nat), (5 : Nat)), (10, 5)] 20 20).1, q = 5) := by
  decide

/-- C2 (amended): one decomposition is computed up front from the initial
pose and one more for every pose record falling inside the recording,
whether or not its value changed (reuse of the cached decomposition happens
only on the leading sub-interval of a buffer, before the first in-buffer
pose record); consequently every in-range pose value is decomposed, so two
distinct in-range poses yield two distinct decompositions, and a stream
repeating the single initial pose value yields exactly one decomposition
value, used on every sub-interval of every buffer. -/
theorem c2_pose_recompute {α : Type} (initPose : α) (recs : List (Nat × α))
    (n st : Nat) (hn : 0 < n) (hst : 0 < st)
    (hrec : recs.Pairwise (fun a b => a.1 < b.1)) :
    (mfTrace initPose recs n st).1.length
        = 1 + recs.countP (fun r => decide (r.1 < n)) ∧
    (∀ r ∈ recs, r.1 < n → r.2 ∈ (mfTrace initPose recs n st).1) ∧
    (∀ p : α, initPose = p → (∀ r ∈ recs, r.2 = p) →
      (∀ q ∈ (mfTrace initPose recs n st).1, q = p) ∧
      (∀ q ∈ (mfTrace initPose recs n st).2, q = p)) := by
  have hc := mfTrace_computes initPose recs n st hn hst hrec
  refine ⟨?_, ?_, ?_⟩
  · rw [hc]
    simp only [List.length_cons, List.countP_eq_length_filter,
      List.length_map]
    omega
  · intro r hr hrn
    rw [hc]
    apply List.mem_cons_of_mem
    exact List.mem_map_of_mem _ (List.mem_filter.mpr ⟨hr, by simpa using hrn⟩)
  · intro p hip hvp
    subst hip
    have h := runBuffers_const recs initPose hvp (bufPairs (read_lims n st))
    constructor
    · intro q hq
      rcases List.mem_cons.mp hq with rfl | hq
      · rfl
      · exact h.2.1 q hq
    · intro q hq
      exact h.2.2 q hq

/-- Witness for the amended C2 at concrete inputs. -/
theorem c2_pose_recompute_witness :
    (0 : Nat) < 25 ∧ (0 : Nat) < 10 ∧
    ([((3 : Nat), (7 : Nat)), (12, 9)].Pairwise (fun a b => a.1 < b.1)) ∧
    ((mfTrace 7 [((3 : Nat), (7 : Nat)), (12, 9)] 25 10).1.length
      = 1 + [((3 : Nat), (7 : Nat)), (12, 9)].countP
          (fun r => decide (r.1 < 25)) ∧
    (∀ r ∈ [((3 : Nat), (7 : Nat)), (12, 9)], r.1 < 25 →
      r.2 ∈ (mfTrace 7 [((3 : Nat), (7 : Nat)), (12, 9)] 25 10).1) ∧
    (∀ p : Nat, 7 = p → (∀ r ∈ [((3 : Nat), (7 : Nat)), (12, 9)], r.2 = p) →
      (∀ q ∈ (mfTrace 7 [((3 : Nat), (7 : Nat)), (12, 9)] 25 10).1, q = p) ∧
      (∀ q ∈ (mfTrace 7 [((3 : Nat), (7 : Nat)), (12, 9)] 25 10).2, q = p))) :=
  ⟨by decide, by decide, by decide,
    c2_pose_recompute 7 [(3, 7), (12, 9)] 25 10 (by decide) (by decide)
      (by decide)⟩

/-- Witness for C1 at concrete inputs: a 25-sample recording with nominal
buffer length 10 and two pose records. -/
theorem c1_windowing_tiles_witness :
    (0 : Nat) < 25 ∧ (0 : Nat) < 10 ∧
    ([((3 : Nat), (7 : Nat)), (12, 9)].Pairwise (fun a b => a.1 < b.1)) ∧
    ((read_lims 25 10).getD 0 1 = 0 ∧
    (read_lims 25 10).getLastD 0 = 25 ∧
    (read_lims 25 10).length - 1 = (if 25 < 10 then 1 else 25 / 10) ∧
    (∀ i, i + 1 < (read_lims 25 10).length →
      min 25 10 ≤ (read_lims 25 10).getD (i + 1) 0
          - (read_lims 25 10).getD i 0 ∧
      (read_lims 25 10).getD (i + 1) 0 - (read_lims 25 10).getD i 0
        < 2 * min 25 10) ∧
    (∀ i, i + 1 < (read_lims 25 10).length →
      tilesFrom 0
        ((read_lims 25 10).getD (i + 1) 0 - (read_lims 25 10).getD i 0)
        (trans_starts_stops [((3 : Nat), (7 : Nat)), (12, 9)]
          ((read_lims 25 10).getD i 0) ((read_lims 25 10).getD (i + 1) 0)))) :=
  ⟨by decide, by decide, by decide,
    c1_windowing_tiles 25 10 [(3, 7), (12, 9)] (by decide) (by decide)
      (by decide)⟩

/-- Column norms computed by col_norm_pinv (norm = np.sqrt of the column sum
of squares).  The square root itself is an external numpy routine, so a
valid norm vector is characterized by its defining property. -/
def IsColNorm {m n : Nat} (x : Matrix (Fin m) (Fin n) ℚ)
    (norm : Fin n → ℚ) : Prop :=
  ∀ j, 0 ≤ norm j ∧ norm j ^ 2 = ∑ i, x i j * x i j

/-- Column-normalized matrix handed to the SVD inside col_norm_pinv
(the in-place x /= norm). -/
def colNormalized {m n : Nat} (x : Matrix (Fin m) (Fin n) ℚ)
    (norm : Fin n → ℚ) : Matrix (Fin m) (Fin n) ℚ :=
  Matrix.of fun i j => x i j / norm j

/-- Economy SVD as returned by scipy linalg.svd(x, full_matrices=False) on a
full-column-rank matrix with at least as many rows as columns: x equals
u diag(s) v with u having orthonormal columns, v square orthogonal and all
singular values positive.  The factorization is an external LAPACK routine,
characterized here by these defining properties. -/
structure IsEconSVD {m n : Nat} (x : Matrix (Fin m) (Fin n) ℚ)
    (u : Matrix (Fin m) (Fin n) ℚ) (s : Fin n → ℚ)
    (v : Matrix (Fin n) (Fin n) ℚ) : Prop where
  factor : x = u * Matrix.diagonal s * v
  u_orth : u.transpose * u = 1
  v_orth : v.transpose * v = 1
  s_pos : ∀ k, 0 < s k

/-- Pseudoinverse assembled by col_norm_pinv from the economy SVD of the
column-normalized matrix: v is divided column-wise by the norms (v /= norm)
and the result is np.dot(v.T * 1/s, u.T). -/
def col_norm_pinv {m n : Nat} (norm : Fin n → ℚ)
    (u : Matrix (Fin m) (Fin n) ℚ) (s : Fin n → ℚ)
    (v : Matrix (Fin n) (Fin n) ℚ) : Matrix (Fin n) (Fin m) ℚ :=
  (Matrix.of fun j k => v k j / norm j * (1 / s k)) * u.transpose

lemma col_norm_pinv_eq_diagonal {m n : Nat} (norm : Fin n → ℚ)
    (u : Matrix (Fin m) (Fin n) ℚ) (s : Fin n → ℚ)
    (v : Matrix (Fin n) (Fin n) ℚ) :
    col_norm_pinv norm u s v =
      Matrix.diagonal (fun j => 1 / norm j) *
        (v.transpose * Matrix.diagonal (fun k => 1 / s k)) * u.transpose := by
  unfold col_norm_pinv
  congr 1
  ext j k
  rw [Matrix.diagonal_mul, Matrix.mul_diagonal]
  simp only [Matrix.of_apply, Matrix.transpose_apply]
  ring

lemma colNormalized_mul_diagonal {m n : Nat}
    (x : Matrix (Fin m) (Fin n) ℚ) (norm : Fin n → ℚ)
    (hnz : ∀ j, norm j ≠ 0) :
    colNormalized x norm * Matrix.diagonal norm = x := by
  ext i j
  rw [Matrix.mul_diagonal]
  simp only [colNormalized, Matrix.of_apply]
  exact div_mul_cancel₀ _ (hnz j)

/-- C3 (amended): for a well-posed basis (full column rank, at least as many
rows as columns, so that the economy SVD of the column-normalized basis has
positive singular values and square orthogonal v), the pseudoinverse built
by col_norm_pinv is an exact left inverse of the basis: pinv(S) * S = 1.
Consequently, any data that lies in the column span of the basis, i.e. any
data of the form S * mm, is reproduced exactly by projecting through the
pseudoinverse and back through the same basis.  (Arbitrary sensor-space
data is NOT reproduced when there are strictly more sensors than moments;
see the counterexample.) -/
theorem c3_pinv_roundtrip {m n t : Nat} (x u : Matrix (Fin m) (Fin n) ℚ)
    (s : Fin n → ℚ) (v : Matrix (Fin n) (Fin n) ℚ) (norm : Fin n → ℚ)
    (mm : Matrix (Fin n) (Fin t) ℚ)
    (hnorm : IsColNorm x norm) (hnz : ∀ j, norm j ≠ 0)
    (hsvd : IsEconSVD (colNormalized x norm) u s v) :
    col_norm_pinv norm u s v * x = 1 ∧
    x * (col_norm_pinv norm u s v * (x * mm)) = x * mm := by
  have hsnz : ∀ k, s k ≠ 0 := fun k => ne_of_gt (hsvd.s_pos k)
  have hx : x = u * Matrix.diagonal s * v * Matrix.diagonal norm := by
    rw [← hsvd.factor]
    exact (colNormalized_mul_diagonal x norm hnz).symm
  have hmain : col_norm_pinv norm u s v * x = 1 := by
    rw [col_norm_pinv_eq_diagonal]
    nth_rewrite 1 [hx]
    simp only [Matrix.mul_assoc]
    rw [← Matrix.mul_assoc u.transpose u, hsvd.u_orth, Matrix.one_mul]
    rw [← Matrix.mul_assoc (Matrix.diagonal fun k => 1 / s k)
      (Matrix.diagonal s), Matrix.diagonal_mul_diagonal]
    have h1 : (Matrix.diagonal fun k => 1 / s k * s k)
        = (1 : Matrix (Fin n) (Fin n) ℚ) := by
      rw [show (fun k => 1 / s k * s k) = fun _ => (1 : ℚ) from
        funext fun k => one_div_mul_cancel (hsnz k), Matrix.diagonal_one]
    rw [h1, Matrix.one_mul, ← Matrix.mul_assoc v.transpose v, hsvd.v_orth,
      Matrix.one_mul, Matrix.diagonal_mul_diagonal]
    rw [show (fun j => 1 / norm j * norm j) = fun _ => (1 : ℚ) from
      funext fun j => one_div_mul_cancel (hnz j), Matrix.diagonal_one]
  refine ⟨hmain, ?_⟩
  rw [← Matrix.mul_assoc (col_norm_pinv norm u s v) x mm, hmain,
    Matrix.one_mul]

/-- Concrete 2-sensor, 1-moment basis used for the C3 counterexample and
the witnesses: unit norm, trivial economy SVD. -/
def cexS : Matrix (Fin 2) (Fin 1) ℚ := Matrix.of fun i _ => if i = 0 then 1 else 0

/-- Concrete data vector outside the column span of cexS. -/
def cexData : Matrix (Fin 2) (Fin 1) ℚ :=
  Matrix.of fun i _ => if i = 0 then 0 else 1

/-- Unit column norm of cexS. -/
def cexNorm : Fin 1 → ℚ := fun _ => 1

/-- Unit singular value of cexS. -/
def cexSing : Fin 1 → ℚ := fun _ => 1

/-- Trivial right factor of the SVD of cexS. -/
def cexV : Matrix (Fin 1) (Fin 1) ℚ := 1

lemma cexS_colnorm : IsColNorm cexS cexNorm := by
  intro j
  constructor
  · norm_num [cexNorm]
  · fin_cases j
    simp [cexS, cexNorm, Fin.sum_univ_succ]

lemma cexNorm_ne : ∀ j, cexNorm j ≠ 0 := by
  intro j; norm_num [cexNorm]

lemma cexS_svd : IsEconSVD (colNormalized cexS cexNorm) cexS cexSing cexV := by
  refine ⟨?_, ?_, ?_, ?_⟩
  · ext i j
    fin_cases i <;> fin_cases j <;>
      simp [colNormalized, cexS, cexNorm, cexSing, cexV, Matrix.mul_apply,
        Fin.sum_univ_succ, Matrix.diagonal]
  · ext i j
    fin_cases i <;> fin_cases j <;>
      simp [cexS, Matrix.mul_apply, Fin.sum_univ_succ, Matrix.one_apply]
  · rw [show cexV = 1 from rfl, Matrix.transpose_one, Matrix.one_mul]
  · intro k; norm_num [cexSing]

/-- C3 counterexample: with the well-posed 2-sensor, 1-moment basis cexS
(full column rank, more good sensors than moments, exact SVD available in
rational arithmetic), projecting the data (0, 1) through the pseudoinverse
and back through the basis yields (0, 0), not the input: S * pinv(S) is the
orthogonal projector onto the column span of S, not the identity on
sensor-space data, whenever sensors strictly outnumber moments. -/
theorem c3_counterexample :
    IsColNorm cexS cexNorm ∧ (∀ j, cexNorm j ≠ 0) ∧
    IsEconSVD (colNormalized cexS cexNorm) cexS cexSing cexV ∧
    ¬(cexS * (col_norm_pinv cexNorm cexS cexSing cexV * cexData)
        = cexData) := by
  refine ⟨cexS_colnorm, cexNorm_ne, cexS_svd, ?_⟩
  intro h
  have h1 := congrFun (congrFun h 1) 0
  simp [cexS, cexData, cexNorm, cexSing, cexV, col_norm_pinv,
    Matrix.mul_apply, Fin.sum_univ_succ] at h1

/-- Witness for the amended C3 at the concrete basis cexS with moment data
mm = 1. -/
theorem c3_pinv_roundtrip_witness :
    (IsColNorm cexS cexNorm ∧ (∀ j, cexNorm j ≠ 0) ∧
      IsEconSVD (colNormalized cexS cexNorm) cexS cexSing cexV) ∧
    (col_norm_pinv cexNorm cexS cexSing cexV * cexS = 1 ∧
      cexS * (col_norm_pinv cexNorm cexS cexSing cexV
          * (cexS * (1 : Matrix (Fin 1) (Fin 1) ℚ)))
        = cexS * (1 : Matrix (Fin 1) (Fin 1) ℚ)) :=
  ⟨⟨cexS_colnorm, cexNorm_ne, cexS_svd⟩,
    c3_pinv_roundtrip cexS cexS cexSing cexV cexNorm 1 cexS_colnorm
      cexNorm_ne cexS_svd⟩

/-- Projector returned by overlap_projector: V_principal = Q_res ⬝ Vh.T with
Vh restricted to the singular directions whose singular value reaches the
correlation threshold.  Q_res (temporal basis of the residual, orthonormal
columns from orth + economy QR) and the SVD factors of the cross-Gram matrix
C = Q_int ⬝ Q_res are external LAPACK outputs, characterized by their
orthogonality properties in the theorem; the retained rows of Vh (the mask
S_intersect >= corr) are an injective index selection sel. -/
def overlap_projector {t r2 rv k : Nat} (Qres : Matrix (Fin t) (Fin r2) ℚ)
    (Vh : Matrix (Fin rv) (Fin r2) ℚ) (sel : Fin k → Fin rv) :
    Matrix (Fin t) (Fin k) ℚ :=
  Qres * Matrix.of (fun i j => Vh (sel j) i)

/-- Temporal projection applied by do_tSSS along the time axis:
clean_data -= np.dot(np.dot(clean_data, t_proj), t_proj.T). -/
def do_tSSS {c t k : Nat} (data : Matrix (Fin c) (Fin t) ℚ)
    (P : Matrix (Fin t) (Fin k) ℚ) : Matrix (Fin c) (Fin t) ℚ :=
  data - data * P * P.transpose

/-- C4: the tSSS projector has orthonormal columns, so the temporal
projection I - P Pᵀ is idempotent: applying do_tSSS a second time with the
same projector (same bases, same correlation threshold in (0, 1]) leaves
the data unchanged. -/
theorem c4_tSSS_idempotent {c t r2 rv k : Nat} (corr : ℚ)
    (S : Fin rv → ℚ) (sel : Fin k → Fin rv)
    (Qres : Matrix (Fin t) (Fin r2) ℚ) (Vh : Matrix (Fin rv) (Fin r2) ℚ)
    (data : Matrix (Fin c) (Fin t) ℚ)
    (hcorr : 0 < corr ∧ corr ≤ 1)
    (hsel : Function.Injective sel) (hmask : ∀ j, corr ≤ S (sel j))
    (hq : Qres.transpose * Qres = 1) (hv : Vh * Vh.transpose = 1) :
    do_tSSS (do_tSSS data (overlap_projector Qres Vh sel))
        (overlap_projector Qres Vh sel)
      = do_tSSS data (overlap_projector Qres Vh sel) := by
  set W : Matrix (Fin r2) (Fin k) ℚ :=
    Matrix.of (fun i j => Vh (sel j) i) with hW
  have hWtW : W.transpose * W = 1 := by
    ext a b
    rw [Matrix.mul_apply]
    have hvab : (Vh * Vh.transpose) (sel a) (sel b)
        = (1 : Matrix (Fin rv) (Fin rv) ℚ) (sel a) (sel b) := by rw [hv]
    rw [Matrix.mul_apply] at hvab
    simp only [Matrix.transpose_apply, hW, Matrix.of_apply]
    rw [show ∑ x, Vh (sel a) x * Vh (sel b) x
        = ∑ x, Vh (sel a) x * Vh.transpose x (sel b) from
      Finset.sum_congr rfl fun x _ => by rw [Matrix.transpose_apply]]
    rw [hvab, Matrix.one_apply, Matrix.one_apply]
    by_cases hab : a = b
    · rw [if_pos hab, if_pos (by rw [hab])]
    · rw [if_neg hab, if_neg (fun h => hab (hsel h))]
  have hPtP : (overlap_projector Qres Vh sel).transpose
      * overlap_projector Qres Vh sel = 1 := by
    unfold overlap_projector
    rw [← hW, Matrix.transpose_mul, Matrix.mul_assoc,
      ← Matrix.mul_assoc Qres.transpose, hq, Matrix.one_mul, hWtW]
  set P := overlap_projector Qres Vh sel with hP
  have hkey : (data - data * P * P.transpose) * P * P.transpose
      = data * P * P.transpose - data * P * P.transpose := by
    rw [Matrix.sub_mul, Matrix.sub_mul]
    congr 1
    rw [Matrix.mul_assoc (data * P) P.transpose P, hPtP]
    rw [Matrix.mul_assoc (data * P) 1 P.transpose, Matrix.one_mul]
  unfold do_tSSS
  rw [hkey, sub_self, sub_zero]

/-- Concrete 2-sample temporal basis for the C4 witness. -/
def cexQres : Matrix (Fin 2) (Fin 1) ℚ :=
  Matrix.of fun i _ => if i = 0 then 1 else 0

/-- Concrete channel data for the C4 witness. -/
def cexTData : Matrix (Fin 1) (Fin 2) ℚ := Matrix.of fun _ _ => 3

lemma cexQres_orth : cexQres.transpose * cexQres = 1 := by
  ext i j
  fin_cases i <;> fin_cases j <;>
    simp [cexQres, Matrix.mul_apply, Fin.sum_univ_succ, Matrix.one_apply]

lemma one_mul_transpose_one {k : Nat} :
    (1 : Matrix (Fin k) (Fin k) ℚ) * (1 : Matrix (Fin k) (Fin k) ℚ).transpose
      = 1 := by
  rw [Matrix.transpose_one, Matrix.one_mul]

/-- Witness for C4 at a concrete residual basis, trivial cross-Gram SVD,
correlation threshold 1, and concrete channel data. -/
theorem c4_tSSS_idempotent_witness :
    ((0 : ℚ) < 1 ∧ (1 : ℚ) ≤ 1) ∧
    do_tSSS (do_tSSS cexTData
        (overlap_projector cexQres 1 (fun j : Fin 1 => j)))
        (overlap_projector cexQres 1 (fun j : Fin 1 => j))
      = do_tSSS cexTData (overlap_projector cexQres 1 (fun j : Fin 1 => j)) :=
  ⟨⟨by norm_num, le_refl 1⟩,
    c4_tSSS_idempotent 1 (fun _ => 1) (fun j => j) cexQres 1 cexTData
      ⟨by norm_num, le_refl 1⟩ (fun a b h => h) (fun _ => le_refl 1)
      cexQres_orth one_mul_transpose_one⟩

/-- Ill-conditioning policy argument of maxwell_filter (the strings
error, warning, ignore). -/
inductive BadCondition
  | error
  | warning
  | ignore
deriving DecidableEq

/-- Condition-number policy at the end of get_decomp: the condition number
cond = sing[0] / sing[-1] of the column-normalized retained basis is checked
before the decomposition outputs (scaled basis and pseudoinverse, stood in
for here by cond itself) are produced; a condition of at least 1000 raises
RuntimeError under bad_condition = error, emits a warning and continues
under warning, and is silently ignored under ignore; below 1000 nothing is
raised or warned under any policy.  The Bool of the success value records
whether a warning was emitted. -/
def bad_condition_check (sing : List ℚ) (bc : BadCondition) :
    Except String (Bool × ℚ) :=
  let cond := sing.headD 0 / sing.getLastD 1
  if bc ≠ BadCondition.ignore ∧ 1000 ≤ cond then
    match bc with
    | BadCondition.error => Except.error "Matrix is badly conditioned"
    | _ => Except.ok (true, cond)
  else Except.ok (false, cond)

/-- C6: when the condition number is at least 1000, bad_condition = error
raises before any output is produced, warning warns and continues, ignore
continues silently; when the condition number is below 1000 no error or
warning is produced under any policy. -/
theorem c6_bad_condition_policy (sing : List ℚ) :
    (1000 ≤ sing.headD 0 / sing.getLastD 1 →
      bad_condition_check sing BadCondition.error
          = Except.error "Matrix is badly conditioned" ∧
      bad_condition_check sing BadCondition.warning
          = Except.ok (true, sing.headD 0 / sing.getLastD 1) ∧
      bad_condition_check sing BadCondition.ignore
          = Except.ok (false, sing.headD 0 / sing.getLastD 1)) ∧
    (sing.headD 0 / sing.getLastD 1 < 1000 →
      ∀ bc, bad_condition_check sing bc
          = Except.ok (false, sing.headD 0 / sing.getLastD 1)) := by
  constructor
  · intro hge
    refine ⟨?_, ?_, ?_⟩
    · unfold bad_condition_check
      rw [if_pos ⟨by simp, hge⟩]
    · unfold bad_condition_check
      rw [if_pos ⟨by simp, hge⟩]
    · unfold bad_condition_check
      rw [if_neg (fun h => h.1 rfl)]
  · intro hlt bc
    unfold bad_condition_check
    rw [if_neg (fun h => absurd h.2 (not_le.mpr hlt))]

/-- Witness for C6 at the concrete singular values (2000, 1), condition
number 2000, and at (10, 1), condition number 10. -/
theorem c6_bad_condition_policy_witness :
    ((1000 : ℚ) ≤ [(2000 : ℚ), 1].headD 0 / [(2000 : ℚ), 1].getLastD 1 ∧
      bad_condition_check [(2000 : ℚ), 1] BadCondition.error
          = Except.error "Matrix is badly conditioned" ∧
      bad_condition_check [(2000 : ℚ), 1] BadCondition.warning
          = Except.ok (true,
              [(2000 : ℚ), 1].headD 0 / [(2000 : ℚ), 1].getLastD 1) ∧
      bad_condition_check [(2000 : ℚ), 1] BadCondition.ignore
          = Except.ok (false,
              [(2000 : ℚ), 1].headD 0 / [(2000 : ℚ), 1].getLastD 1)) ∧
    ([(10 : ℚ), 1].headD 0 / [(10 : ℚ), 1].getLastD 1 < 1000 ∧
      ∀ bc, bad_condition_check [(10 : ℚ), 1] bc
          = Except.ok (false,
              [(10 : ℚ), 1].headD 0 / [(10 : ℚ), 1].getLastD 1)) :=
  ⟨⟨by norm_num, (c6_bad_condition_policy [2000, 1]).1 (by norm_num)⟩,
    ⟨by norm_num, (c6_bad_condition_policy [10, 1]).2 (by norm_num)⟩⟩

/-- Python 3 round-half-to-even applied by int(round(x)). -/
def pyRound (x : ℚ) : ℤ :=
  if x - Int.floor x = 1 / 2 then
    (if Int.floor x % 2 = 0 then Int.floor x else Int.floor x + 1)
  else round x

/-- st_duration triage at the top of maxwell_filter, executed before any
data is loaded (the copy/preload happens only later, after all checks): a
non-None st_duration must satisfy 0 < st_duration <= raw.times[-1] +
1/sfreq, otherwise ValueError; an accepted duration is converted to a
sample count via int(round(st_duration * sfreq)). -/
def check_st_duration (st : Option ℚ) (lastTime sfreq : ℚ) :
    Except String (Option ℤ) :=
  match st with
  | none => Except.ok none
  | some d =>
      if 0 < d ∧ d ≤ lastTime + 1 / sfreq then
        Except.ok (some (pyRound (d * sfreq)))
      else
        Except.error "st_duration must be between 0 and the duration of the data"

/-- C9: a non-None st_duration that is nonpositive or exceeds the recording
duration plus one sample period is rejected with ValueError before any data
is loaded; an in-range st_duration is accepted and rounded to an integer
number of samples. -/
theorem c9_st_duration_check (d lastTime sfreq : ℚ) :
    ((d ≤ 0 ∨ lastTime + 1 / sfreq < d) →
      check_st_duration (some d) lastTime sfreq
        = Except.error
            "st_duration must be between 0 and the duration of the data") ∧
    (0 < d → d ≤ lastTime + 1 / sfreq →
      check_st_duration (some d) lastTime sfreq
        = Except.ok (some (pyRound (d * sfreq)))) := by
  constructor
  · intro hbad
    simp only [check_st_duration]
    rw [if_neg]
    intro h
    rcases hbad with hb | hb
    · exact absurd h.1 (not_lt.mpr hb)
    · exact absurd h.2 (not_le.mpr hb)
  · intro h1 h2
    simp only [check_st_duration]
    rw [if_pos ⟨h1, h2⟩]

/-- Witness for C9: st_duration 2 s on a recording with last time 3 s at
10 Hz is accepted and rounded to 20 samples; st_duration 5 s is rejected. -/
theorem c9_st_duration_check_witness :
    ((0 : ℚ) < 2 ∧ (2 : ℚ) ≤ 3 + 1 / 10 ∧
      check_st_duration (some 2) 3 10 = Except.ok (some (pyRound (2 * 10)))) ∧
    (((5 : ℚ) ≤ 0 ∨ (3 : ℚ) + 1 / 10 < 5) ∧
      check_st_duration (some 5) 3 10
        = Except.error
            "st_duration must be between 0 and the duration of the data") :=
  ⟨⟨by norm_num, by norm_num,
      (c9_st_duration_check 2 3 10).2 (by norm_num) (by norm_num)⟩,
    ⟨Or.inr (by norm_num),
      (c9_st_duration_check 5 3 10).1 (Or.inr (by norm_num))⟩⟩

/-- Magnetometer scale determination get_coil_scale.  mag_scale = none
models the string value auto.  With auto, a channel set holding only one
coil type (no magnetometers at all, or every MEG pick a magnetometer) gets
the fixed scale 100 and no error can occur; otherwise the gradiometer
baselines (from the external geometry helper _create_meg_coils, abstracted
as the bases list of the gradiometer picks) must form one single positive
value, else a fatal RuntimeError.  The per-channel scale vector carries
mag_scale on magnetometer rows and 1 elsewhere. -/
def get_coil_scale (nMeg : Nat) (magPicks : List (Fin nMeg))
    (gradBases : List ℚ) (mag_scale : Option ℚ) :
    Except String ((Fin nMeg → ℚ) × ℚ) :=
  match mag_scale with
  | some ms => Except.ok (fun i => if i ∈ magPicks then ms else 1, ms)
  | none =>
      if magPicks.length = 0 ∨ magPicks.length = nMeg then
        Except.ok (fun i => if i ∈ magPicks then 100 else 1, 100)
      else
        let gb := gradBases.dedup
        if gb.length ≠ 1 ∨ gb.headD 0 ≤ 0 then
          Except.error "Could not automatically determine mag_scale"
        else
          Except.ok (fun i => if i ∈ magPicks then 1 / gb.headD 0 else 1,
            1 / gb.headD 0)

/-- C10: with mag_scale auto and a single coil type (no magnetometer picks,
or magnetometer picks equal to all MEG picks), get_coil_scale returns the
fixed scale 100 without raising; the gradiometer-baseline derivation and its
fatal error are reached only when magnetometers and gradiometers are both
present. -/
theorem c10_coil_scale_single_type (nMeg : Nat) (magPicks : List (Fin nMeg))
    (gradBases : List ℚ) (nGrad : Nat) (hpart : magPicks.length + nGrad = nMeg) :
    ((magPicks.length = 0 ∨ magPicks.length = nMeg) →
      get_coil_scale nMeg magPicks gradBases none
        = Except.ok (fun i => if i ∈ magPicks then 100 else 1, 100)) ∧
    (∀ e, get_coil_scale nMeg magPicks gradBases none = Except.error e →
      0 < magPicks.length ∧ 0 < nGrad) := by
  constructor
  · intro hone
    unfold get_coil_scale
    rw [if_pos hone]
  · intro e herr
    unfold get_coil_scale at herr
    by_cases hone : magPicks.length = 0 ∨ magPicks.length = nMeg
    · rw [if_pos hone] at herr
      exact absurd herr (by simp)
    · push_neg at hone
      omega

/-- Witness for C10: three MEG channels, no magnetometers, so the fixed
scale 100 is returned without touching the baselines. -/
theorem c10_coil_scale_single_type_witness :
    (([] : List (Fin 3)).length + 3 = 3) ∧
    ((([] : List (Fin 3)).length = 0 ∨ ([] : List (Fin 3)).length = 3) →
      get_coil_scale 3 [] [] none
        = Except.ok (fun i => if i ∈ ([] : List (Fin 3)) then 100 else 1,
            100)) ∧
    (∀ e, get_coil_scale 3 ([] : List (Fin 3)) [] none = Except.error e →
      0 < ([] : List (Fin 3)).length ∧ 0 < 3) :=
  ⟨by decide,
    (c10_coil_scale_single_type 3 [] [] 3 (by decide)).1,
    (c10_coil_scale_single_type 3 [] [] 3 (by decide)).2⟩

/-- numpy unique: sort ascending, then drop duplicate values. -/
def npUnique (l : List ℚ) : List ℚ :=
  (l.mergeSort (fun a b => decide (a ≤ b))).dedup

lemma mergeSort_pairwise_le (l : List ℚ) :
    (l.mergeSort (fun a b => decide (a ≤ b))).Pairwise (· ≤ ·) := by
  have h := @List.sorted_mergeSort ℚ (fun a b => decide (a ≤ b))
    (fun a b c h1 h2 => by
      simp only [decide_eq_true_eq] at h1 h2 ⊢
      exact le_trans h1 h2)
    (fun a b => by
      simp only [Bool.or_eq_true, decide_eq_true_eq]
      exact le_total a b) l
  exact h.imp (fun hab => by simpa using hab)

/-- The check np.array_equal(t, np.unique(t)) of check_pos passes exactly
when the time column is strictly ascending (equivalently: unique values in
ascending order). -/
lemma npUnique_eq_self_iff (l : List ℚ) :
    l = npUnique l ↔ l.Pairwise (· < ·) := by
  constructor
  · intro h
    have hle : (npUnique l).Pairwise (· ≤ ·) :=
      List.Pairwise.sublist (List.dedup_sublist _) (mergeSort_pairwise_le l)
    have hne : (npUnique l).Nodup := List.nodup_dedup _
    rw [h]
    exact (hle.and hne).imp (fun hab => lt_of_le_of_ne hab.1 hab.2)
  · intro h
    unfold npUnique
    rw [List.mergeSort_eq_self (h.imp le_of_lt),
      List.Nodup.dedup (h.imp (fun hab => ne_of_lt hab))]

/-- Validation and conversion of the externally supplied head position
array (check_pos), which maxwell_filter runs before any data is loaded or
copied.  A position array is a list of rows whose first column holds the
times; pos = none (no movement compensation) passes through untouched.  In
order, the code checks shape (N, 10), strictly-ascending unique times
(np.array_equal(t, np.unique(t))), and the time mask against the first
sample offset; the mask is modelled from the spec of _time_mask (not in the
core source): times must not precede the first-sample offset t_off beyond
the 1 ms MaxFilter rounding tolerance.  Warnings (untested st_fixed,
too-distant positions) do not alter the result and are not modelled.  On
success the times are shifted by t_off (the rotation matrices built from
the quaternions by the external quat_to_rot are not modelled) and the input
rows are passed through unmodified. -/
def check_pos (pos : Option (List (List ℚ))) (head_frame : Bool)
    (t_off : ℚ) : Except String (Option (List ℚ × List (List ℚ))) :=
  match pos with
  | none => Except.ok none
  | some rows =>
      if ¬head_frame then
        Except.error "positions can only be used if coord_frame is head"
      else if ¬(rows.all (fun r => decide (r.length = 10))) then
        Except.error "pos must be an array of shape (N, 10)"
      else
        let t := rows.map (fun r => r.headD 0)
        if ¬(t = npUnique t) then
          Except.error "Time points must unique and in ascending order"
        else if ¬(t.all (fun x => decide (t_off - 1 / 1000 ≤ x))) then
          Except.error
            "Head position time points must be greater than first sample offset"
        else
          Except.ok (some (t.map (fun x => x - t_off), rows))

/-- C8: a head_pos array whose rows are not all of length 10, or whose time
column is not strictly ascending with unique values, or which holds a time
preceding the first-sample offset beyond the 1 ms tolerance, is rejected
with an error (raised before any data is loaded, check_pos being part of
the triage that precedes the preload); a valid array passes, its times
shifted by the offset and its rows passed through unmodified. -/
theorem c8_check_pos_validation (rows : List (List ℚ)) (t_off : ℚ) :
    (¬(∀ r ∈ rows, r.length = 10) →
      check_pos (some rows) true t_off
        = Except.error "pos must be an array of shape (N, 10)") ∧
    ((∀ r ∈ rows, r.length = 10) →
      ¬(rows.map (fun r => r.headD 0)).Pairwise (· < ·) →
      check_pos (some rows) true t_off
        = Except.error "Time points must unique and in ascending order") ∧
    ((∀ r ∈ rows, r.length = 10) →
      (rows.map (fun r => r.headD 0)).Pairwise (· < ·) →
      (∃ x ∈ rows.map (fun r => r.headD 0), x < t_off - 1 / 1000) →
      check_pos (some rows) true t_off
        = Except.error
          "Head position time points must be greater than first sample offset") ∧
    ((∀ r ∈ rows, r.length = 10) →
      (rows.map (fun r => r.headD 0)).Pairwise (· < ·) →
      (∀ x ∈ rows.map (fun r => r.headD 0), t_off - 1 / 1000 ≤ x) →
      check_pos (some rows) true t_off
        = Except.ok (some
            ((rows.map (fun r => r.headD 0)).map (fun x => x - t_off),
              rows))) := by
  have hshape : (rows.all (fun r => decide (r.length = 10)) = true)
      ↔ (∀ r ∈ rows, r.length = 10) := by
    rw [List.all_eq_true]
    constructor
    · intro h r hr; have := h r hr; simpa using this
    · intro h r hr; simpa using h r hr
  refine ⟨?_, ?_, ?_, ?_⟩
  · intro hbad
    simp only [check_pos]
    rw [if_neg (by simp), if_pos]
    intro hall
    exact hbad (hshape.mp hall)
  · intro hgood hasc
    simp only [check_pos]
    rw [if_neg (by simp), if_neg (by simpa using hshape.mpr hgood), if_pos]
    intro heq
    exact hasc ((npUnique_eq_self_iff _).mp heq)
  · intro hgood hasc hearly
    simp only [check_pos]
    rw [if_neg (by simp), if_neg (by simpa using hshape.mpr hgood),
      if_neg (by simpa using (npUnique_eq_self_iff _).mpr hasc), if_pos]
    rcases hearly with ⟨x, hx, hxlt⟩
    intro hall
    rw [List.all_eq_true] at hall
    have := hall x hx
    simp only [decide_eq_true_eq] at this
    exact absurd this (not_le.mpr hxlt)
  · intro hgood hasc hmask
    simp only [check_pos]
    rw [if_neg (by simp), if_neg (by simpa using hshape.mpr hgood),
      if_neg (by simpa using (npUnique_eq_self_iff _).mpr hasc),
      if_neg (fun hneg => hneg (by
        rw [List.all_eq_true]
        intro x hx
        simpa using hmask x hx))]

/-- Witness for C8: a valid two-row position array with times 1 and 2
against a first-sample offset of 1/2. -/
theorem c8_check_pos_validation_witness :
    (∀ r ∈ [(1 : ℚ) :: List.replicate 9 0, 2 :: List.replicate 9 0],
        r.length = 10) ∧
    (([(1 : ℚ) :: List.replicate 9 0, 2 :: List.replicate 9 0].map
        (fun r => r.headD 0)).Pairwise (· < ·)) ∧
    (∀ x ∈ [(1 : ℚ) :: List.replicate 9 0, 2 :: List.replicate 9 0].map
        (fun r => r.headD 0), (1 : ℚ) / 2 - 1 / 1000 ≤ x) ∧
    check_pos (some [(1 : ℚ) :: List.replicate 9 0, 2 :: List.replicate 9 0])
        true (1 / 2)
      = Except.ok (some
          (([(1 : ℚ) :: List.replicate 9 0, 2 :: List.replicate 9 0].map
              (fun r => r.headD 0)).map (fun x => x - 1 / 2),
            [(1 : ℚ) :: List.replicate 9 0, 2 :: List.replicate 9 0])) :=
  ⟨by decide, by norm_num [List.pairwise_cons], by norm_num,
    (c8_check_pos_validation _ _).2.2.2 (by decide)
      (by norm_num [List.pairwise_cons]) (by norm_num)⟩

/-- Modelled from the spec: the helper _get_n_moments is imported from
outside the repository core.  Per the spec, the multipole moments of an
expansion order L are the (degree, order) pairs with degree 1..L (degree 0,
the monopole, is excluded) and order -degree..degree, so their count is
L * (L + 2). -/
def get_n_moments (order : Nat) : Nat := order * (order + 2)

/-- External regularization regularize_out: remove the lowest three external
moments (the degree-one terms, at column indices n_in, n_in + 1, n_in + 2 of
the combined basis) unless some sensor is magnetometer-or-fine, in which
case nothing is removed (np.arange(0 if mag_or_fine.any() else 3) + n_in). -/
def regularize_out (int_order ext_order : Nat) (magOrFineAny : Bool) :
    List Nat :=
  (List.range (if magOrFineAny then 0 else 3)).map
    (fun i => i + get_n_moments int_order)

/-- Minimum of a nonempty list (numpy min). -/
def listMin : List ℚ → ℚ
  | [] => 0
  | [x] => x
  | x :: y :: rest => min x (listMin (y :: rest))

/-- Maximum of a nonempty list (numpy max, as in I_tots.max()). -/
def listMax : List ℚ → ℚ
  | [] => 0
  | [x] => x
  | x :: y :: rest => max x (listMax (y :: rest))

/-- First index attaining the minimum of a list (np.argmin). -/
def argminIdx : List ℚ → Nat
  | [] => 0
  | [_] => 0
  | x :: y :: rest =>
      if x ≤ listMin (y :: rest) then 0 else argminIdx (y :: rest) + 1

/-- First index whose entry reaches the threshold
(np.where(I_tots >= thr)[0][0]); the list length when no entry qualifies. -/
def firstIdxGe (thr : ℚ) : List ℚ → Nat
  | [] => 0
  | x :: rest => if thr ≤ x then 0 else firstIdxGe thr rest + 1

/-- State of the removal sweep of regularize_in: the surviving internal
moments in_keepers (order preserved), the removal order remove_order, and
the information array I_tots of fixed length n_in, initialized to zeros. -/
structure SweepState where
  keepers : List Nat
  order : List Nat
  iTots : List ℚ

/-- One iteration of the removal sweep at iteration index ii.  The
SVD-derived per-moment noise sensitivity and the degree-only signal term of
the source (this_S -> svd -> eta_lm_sq; a_lm_sq / eta_lm_sq) are
abstracted into the oracle snr, a function of the surviving internal set
and the moment, the SVD being an external LAPACK routine; numpy log2 is the
external function lg.  The iteration records
I_tots[ii] = 0.5 * (log2(snr + 1)).sum() over the surviving moments, then
removes the first surviving moment attaining the minimal snr (np.argmin)
and appends it to the removal order (in_keepers.pop keeps the remaining
moments in order). -/
def sweepStep (snr : List Nat → Nat → ℚ) (lg : ℚ → ℚ) (ii : Nat)
    (st : SweepState) : SweepState :=
  let snrs := st.keepers.map (snr st.keepers)
  let info :=
    (1 / 2 : ℚ) * (st.keepers.map (fun k => lg (snr st.keepers k + 1))).sum
  let j := argminIdx snrs
  { keepers := st.keepers.eraseIdx j,
    order := st.order ++ [st.keepers.getD j 0],
    iTots := st.iTots.set ii info }

/-- Removal sweep over the iteration indices, with the early-exit
heuristic: after iteration ii the loop stops early when ii > 10 and the
information entries at indices ii - 1 and ii both lie below 95 percent of
the running maximum of the information array. -/
def sweepRun (snr : List Nat → Nat → ℚ) (lg : ℚ → ℚ) :
    List Nat → SweepState → SweepState
  | [], st => st
  | ii :: rest, st =>
      let st2 := sweepStep snr lg ii st
      if 10 < ii ∧
          st2.iTots.getD (ii - 1) 0 < (95 / 100 : ℚ) * listMax st2.iTots ∧
          st2.iTots.getD ii 0 < (95 / 100 : ℚ) * listMax st2.iTots then
        st2
      else sweepRun snr lg rest st2

/-- Final sweep state of regularize_in for internal order int_order: the
loop for ii in range(n_in) starting from the full internal moment set. -/
def sweepFinal (snr : List Nat → Nat → ℚ) (lg : ℚ → ℚ)
    (int_order : Nat) : SweepState :=
  sweepRun snr lg (List.range (get_n_moments int_order))
    { keepers := List.range (get_n_moments int_order), order := [],
      iTots := List.replicate (get_n_moments int_order) 0 }

/-- Internal regularization regularize_in: run the removal sweep, then take
as in_removes the prefix of the removal order up to the first index whose
information reaches 98 percent of the maximum observed information
(np.where(I_tots >= 0.98 * max_info)[0][0]); out_removes delegates to
regularize_out exactly as when regularization is disabled. -/
def regularize_in (snr : List Nat → Nat → ℚ) (lg : ℚ → ℚ)
    (int_order ext_order : Nat) (magOrFineAny : Bool) :
    List Nat × List Nat :=
  let st := sweepFinal snr lg int_order
  (st.order.take (firstIdxGe ((98 / 100 : ℚ) * listMax st.iTots) st.iTots),
    regularize_out int_order ext_order magOrFineAny)

/-- Moment selection of _regularize: with regularize enabled (the string
value in) the removal lists come from regularize_in, otherwise no internal
moment is removed and the external removals come from regularize_out; the
retained moment lists are the sorted set differences (np.setdiff1d) against
the internal range 0..n_in and the external range n_in..n_in + n_out. -/
def regularizeMoments (reg : Bool) (snr : List Nat → Nat → ℚ) (lg : ℚ → ℚ)
    (int_order ext_order : Nat) (magOrFineAny : Bool) :
    List Nat × List Nat :=
  let nIn := get_n_moments int_order
  let nOut := get_n_moments ext_order
  let removes :=
    if reg then regularize_in snr lg int_order ext_order magOrFineAny
    else ([], regularize_out int_order ext_order magOrFineAny)
  ((List.range nIn).filter (fun k => decide (k ∉ removes.1)),
    (List.range' nIn nOut).filter (fun k => decide (k ∉ removes.2)))

/-- Surviving internal moments before iteration ii, reconstructed from the
removal order: the full internal range with the first ii removed moments
filtered out, order preserved. -/
def keepersAt (nIn : Nat) (ord : List Nat) (ii : Nat) : List Nat :=
  (List.range nIn).filter (fun k => decide (k ∉ ord.take ii))

/-- Index j holds the first minimum of vals: the entry at j is minimal and
every earlier entry is strictly larger. -/
def IsFirstMin (vals : List ℚ) (j : Nat) : Prop :=
  j < vals.length ∧ (∀ i, i < vals.length → vals.getD j 0 ≤ vals.getD i 0) ∧
    (∀ i, i < j → vals.getD j 0 < vals.getD i 0)

/-- Removal step ii of the sweep removed exactly the first surviving
internal moment of lowest estimated SNR: the moment removed at step ii sits
at a first-minimum position of the SNR values over the surviving set. -/
def StepSpec (snr : List Nat → Nat → ℚ) (nIn : Nat) (ord : List Nat)
    (ii : Nat) : Prop :=
  ∃ j, IsFirstMin ((keepersAt nIn ord ii).map (snr (keepersAt nIn ord ii))) j ∧
    ord.getD ii 0 = (keepersAt nIn ord ii).getD j 0

lemma listMin_le : ∀ (l : List ℚ), ∀ x ∈ l, listMin l ≤ x := by
  intro l
  induction l with
  | nil => simp
  | cons a l ih =>
      intro x hx
      cases l with
      | nil =>
          rcases List.mem_singleton.mp hx with rfl
          exact le_refl x
      | cons b rest =>
          rcases List.mem_cons.mp hx with rfl | hx
          · exact min_le_left _ _
          · exact le_trans (min_le_right _ _) (ih x hx)

lemma argminIdx_lt_length : ∀ (l : List ℚ), l ≠ [] → argminIdx l < l.length := by
  intro l
  induction l with
  | nil => intro h; exact absurd rfl h
  | cons a l ih =>
      intro _
      cases l with
      | nil => simp [argminIdx]
      | cons b rest =>
          unfold argminIdx
          by_cases h : a ≤ listMin (b :: rest)
          · rw [if_pos h]; simp
          · rw [if_neg h]
            have := ih (by simp)
            simpa using Nat.succ_lt_succ this

lemma getD_argminIdx : ∀ (l : List ℚ), l ≠ [] →
    l.getD (argminIdx l) 0 = listMin l := by
  intro l
  induction l with
  | nil => intro h; exact absurd rfl h
  | cons a l ih =>
      intro _
      cases l with
      | nil => rfl
      | cons b rest =>
          rw [show listMin (a :: b :: rest) = min a (listMin (b :: rest))
            from rfl]
          unfold argminIdx
          by_cases h : a ≤ listMin (b :: rest)
          · rw [if_pos h]
            exact (min_eq_left h).symm
          · rw [if_neg h]
            have h2 := ih (by simp)
            have h3 : min a (listMin (b :: rest)) = listMin (b :: rest) :=
              min_eq_right (le_of_lt (lt_of_not_le h))
            rw [h3, ← h2]
            rfl

lemma argminIdx_first : ∀ (l : List ℚ) (i : Nat), i < argminIdx l →
    listMin l < l.getD i 0 := by
  intro l
  induction l with
  | nil => intro i hi; simp [argminIdx] at hi
  | cons a l ih =>
      intro i hi
      cases l with
      | nil => simp [argminIdx] at hi
      | cons b rest =>
          unfold argminIdx at hi
          by_cases h : a ≤ listMin (b :: rest)
          · rw [if_pos h] at hi; omega
          · rw [if_neg h] at hi
            have hmin : listMin (a :: b :: rest) = listMin (b :: rest) :=
              min_eq_right (le_of_lt (lt_of_not_le h))
            cases i with
            | zero =>
                rw [hmin]
                exact lt_of_not_le h
            | succ i =>
                rw [hmin]
                exact ih i (by omega)

lemma listMax_mem : ∀ (l : List ℚ), l ≠ [] → listMax l ∈ l := by
  intro l
  induction l with
  | nil => intro h; exact absurd rfl h
  | cons a l ih =>
      intro _
      cases l with
      | nil => simp [listMax]
      | cons b rest =>
          unfold listMax
          by_cases h : a ≤ listMax (b :: rest)
          · rw [max_eq_right h]
            exact List.mem_cons_of_mem _ (ih (by simp))
          · rw [max_eq_left (le_of_lt (lt_of_not_le h))]
            simp

lemma le_listMax : ∀ (l : List ℚ), ∀ x ∈ l, x ≤ listMax l := by
  intro l
  induction l with
  | nil => simp
  | cons a l ih =>
      intro x hx
      cases l with
      | nil =>
          rcases List.mem_singleton.mp hx with rfl
          exact le_refl x
      | cons b rest =>
          rcases List.mem_cons.mp hx with rfl | hx
          · exact le_max_left _ _
          · exact le_trans (ih x hx) (le_max_right _ _)

lemma firstIdxGe_le_length (thr : ℚ) :
    ∀ (l : List ℚ), firstIdxGe thr l ≤ l.length := by
  intro l
  induction l with
  | nil => simp [firstIdxGe]
  | cons a l ih =>
      unfold firstIdxGe
      by_cases h : thr ≤ a
      · rw [if_pos h]; simp
      · rw [if_neg h]
        simpa using Nat.succ_le_succ ih

lemma firstIdxGe_lt_of_mem (thr : ℚ) :
    ∀ (l : List ℚ), (∃ x ∈ l, thr ≤ x) → firstIdxGe thr l < l.length := by
  intro l
  induction l with
  | nil => intro h; simp at h
  | cons a l ih =>
      intro h
      unfold firstIdxGe
      by_cases ha : thr ≤ a
      · rw [if_pos ha]; simp
      · rw [if_neg ha]
        rcases h with ⟨x, hx, hthr⟩
        rcases List.mem_cons.mp hx with rfl | hx
        · exact absurd hthr ha
        · simpa using Nat.succ_lt_succ (ih ⟨x, hx, hthr⟩)

lemma getD_firstIdxGe (thr : ℚ) :
    ∀ (l : List ℚ), firstIdxGe thr l < l.length →
      thr ≤ l.getD (firstIdxGe thr l) 0 := by
  intro l
  induction l with
  | nil => intro h; simp at h
  | cons a l ih =>
      intro h
      unfold firstIdxGe at h ⊢
      by_cases ha : thr ≤ a
      · rw [if_pos ha]
        exact ha
      · rw [if_neg ha] at h ⊢
        exact ih (by simpa using h)

lemma firstIdxGe_lt_thr (thr : ℚ) :
    ∀ (l : List ℚ) (i : Nat), i < firstIdxGe thr l → l.getD i 0 < thr := by
  intro l
  induction l with
  | nil => intro i hi; simp [firstIdxGe] at hi
  | cons a l ih =>
      intro i hi
      unfold firstIdxGe at hi
      by_cases ha : thr ≤ a
      · rw [if_pos ha] at hi; omega
      · rw [if_neg ha] at hi
        cases i with
        | zero => exact lt_of_not_le ha
        | succ i => exact ih i (by omega)

lemma getD_set_self_q (l : List ℚ) (i : Nat) (a : ℚ) (h : i < l.length) :
    (l.set i a).getD i 0 = a := by
  rw [List.getD_eq_getElem _ _ (by simpa using h)]
  exact List.getElem_set_self _

lemma getD_set_ne_q (l : List ℚ) (i j : Nat) (a : ℚ) (h : i ≠ j) :
    (l.set i a).getD j 0 = l.getD j 0 := by
  by_cases hj : j < l.length
  · rw [List.getD_eq_getElem _ _ (by simpa using hj),
      List.getD_eq_getElem _ _ hj]
    exact List.getElem_set_ne h _
  · rw [List.getD_eq_default _ _ (by simpa using not_lt.mp hj),
      List.getD_eq_default _ _ (not_lt.mp hj)]

lemma getD_replicate_zero (n j : Nat) :
    (List.replicate n (0 : ℚ)).getD j 0 = 0 := by
  by_cases hj : j < n
  · rw [List.getD_eq_getElem _ _ (by simpa using hj)]
    simp
  · rw [List.getD_eq_default _ _ (by simpa using not_lt.mp hj)]

lemma eraseIdx_eq_filter_ne :
    ∀ (l : List Nat), l.Nodup → ∀ (j : Nat), j < l.length →
      l.eraseIdx j = l.filter (fun x => decide (x ≠ l.getD j 0)) := by
  intro l
  induction l with
  | nil => intro _ j hj; simp at hj
  | cons a l ih =>
      intro hnd j hj
      rcases List.pairwise_cons.mp hnd with ⟨ha, hl⟩
      cases j with
      | zero =>
          simp only [List.eraseIdx, List.getD_cons_zero, List.filter_cons]
          rw [if_neg (by simp)]
          symm
          rw [List.filter_eq_self]
          intro x hx
          simpa using (ha x hx).symm
      | succ j =>
          have hjl : j < l.length := by simpa using hj
          have hb : l.getD j 0 ∈ l := by
            rw [List.getD_eq_getElem _ _ hjl]
            exact List.getElem_mem _
          simp only [List.eraseIdx, List.getD_cons_succ, List.filter_cons]
          rw [if_pos (by simpa using fun h => (ha _ hb) h)]
          rw [ih hl j hjl]

lemma filter_filter_not_mem (l : List Nat) (ord : List Nat) (r : Nat) :
    (l.filter (fun k => decide (k ∉ ord))).filter
        (fun k => decide (k ≠ r))
      = l.filter (fun k => decide (k ∉ ord ++ [r])) := by
  rw [List.filter_filter]
  apply List.filter_congr
  intro x _
  by_cases h1 : x ∈ ord
  · simp [h1]
  · by_cases h2 : x = r
    · simp [h1, h2]
    · simp [h1, h2]

/-- Invariant-carrying properties of a finished sweep: at most n_in
removals; the information array keeps its length and stays nonnegative;
every performed removal step took the first surviving moment of minimal
SNR; and an early stop can only have happened past 10 removals with the
last two information values below 95 percent of the maximum. -/
def SweepOut (snr : List Nat → Nat → ℚ) (nIn : Nat) (res : SweepState) :
    Prop :=
  res.order.length ≤ nIn ∧
  res.iTots.length = nIn ∧
  (∀ j, 0 ≤ res.iTots.getD j 0) ∧
  (∀ k, k < res.order.length → StepSpec snr nIn res.order k) ∧
  (res.order.length < nIn →
    10 < res.order.length - 1 ∧
    res.iTots.getD (res.order.length - 2) 0
      < (95 / 100 : ℚ) * listMax res.iTots ∧
    res.iTots.getD (res.order.length - 1) 0
      < (95 / 100 : ℚ) * listMax res.iTots)

lemma sweepRun_master (snr : List Nat → Nat → ℚ) (lg : ℚ → ℚ)
    (hsnr : ∀ K k, 0 ≤ snr K k) (hlg : ∀ q, 1 ≤ q → 0 ≤ lg q) (nIn : Nat) :
    ∀ (fuel ii : Nat) (st : SweepState), nIn - ii ≤ fuel → ii ≤ nIn →
      st.order.length = ii →
      st.keepers = (List.range nIn).filter (fun k => decide (k ∉ st.order)) →
      st.keepers.length = nIn - ii →
      st.iTots.length = nIn →
      (∀ j, 0 ≤ st.iTots.getD j 0) →
      (∀ k, k < ii → StepSpec snr nIn st.order k) →
      SweepOut snr nIn (sweepRun snr lg ((List.range nIn).drop ii) st) := by
  intro fuel
  induction fuel with
  | zero =>
      intro ii st hfuel hii horder hkeep hkeeplen hitots hnonneg hgood
      have hieq : ii = nIn := by omega
      rw [List.drop_eq_nil_of_le (by simpa using hieq.ge)]
      simp only [sweepRun]
      exact ⟨by omega, hitots, hnonneg,
        fun k hk => hgood k (by omega), fun h => absurd h (by omega)⟩
  | succ fuel ih =>
      intro ii st hfuel hii horder hkeep hkeeplen hitots hnonneg hgood
      by_cases hieq : ii = nIn
      · rw [List.drop_eq_nil_of_le (by simpa using hieq.ge)]
        simp only [sweepRun]
        exact ⟨by omega, hitots, hnonneg,
          fun k hk => hgood k (by omega), fun h => absurd h (by omega)⟩
      · have hlt : ii < nIn := by omega
        rw [List.drop_eq_getElem_cons (by simpa using hlt),
          List.getElem_range]
        simp only [sweepRun]
        set st2 := sweepStep snr lg ii st with hst2
        have hkne : st.keepers ≠ [] := by
          intro h
          rw [h] at hkeeplen
          simp at hkeeplen
          omega
        have hknd : st.keepers.Nodup := by
          rw [hkeep]
          exact (List.nodup_range nIn).filter _
        have hjlt : argminIdx (st.keepers.map (snr st.keepers))
            < st.keepers.length := by
          have := argminIdx_lt_length (st.keepers.map (snr st.keepers))
            (by simpa using hkne)
          simpa using this
        have hrem_mem : st.keepers.getD
            (argminIdx (st.keepers.map (snr st.keepers))) 0 ∈ st.keepers := by
          rw [List.getD_eq_getElem _ _ hjlt]
          exact List.getElem_mem _
        have horder2 : st2.order.length = ii + 1 := by
          rw [hst2]
          simp only [sweepStep, List.length_append, List.length_cons,
            List.length_nil]
          omega
        have hkeep2 : st2.keepers
            = (List.range nIn).filter (fun k => decide (k ∉ st2.order)) := by
          rw [hst2]
          simp only [sweepStep]
          rw [eraseIdx_eq_filter_ne st.keepers hknd _ hjlt]
          conv_lhs => rw [hkeep]
          rw [filter_filter_not_mem, ← hkeep]
        have hkeeplen2 : st2.keepers.length = nIn - (ii + 1) := by
          rw [hst2]
          simp only [sweepStep]
          rw [List.length_eraseIdx, if_pos hjlt, hkeeplen]
          omega
        have hitots2 : st2.iTots.length = nIn := by
          rw [hst2]
          simp only [sweepStep]
          rw [List.length_set, hitots]
        have hinfo_nonneg : 0 ≤ (1 / 2 : ℚ) *
            (st.keepers.map (fun k => lg (snr st.keepers k + 1))).sum := by
          apply mul_nonneg (by norm_num)
          apply List.sum_nonneg
          intro x hx
          rcases List.mem_map.mp hx with ⟨k, _, rfl⟩
          exact hlg _ (by linarith [hsnr st.keepers k])
        have hnonneg2 : ∀ j, 0 ≤ st2.iTots.getD j 0 := by
          intro j
          rw [hst2]
          simp only [sweepStep]
          by_cases hj : ii = j
          · subst hj
            rw [getD_set_self_q _ _ _ (by omega)]
            exact hinfo_nonneg
          · rw [getD_set_ne_q _ _ _ _ hj]
            exact hnonneg j
        have hgood2 : ∀ k, k < ii + 1 → StepSpec snr nIn st2.order k := by
          intro k hk
          have htake : ∀ m, m ≤ ii → st2.order.take m = st.order.take m := by
            intro m hm
            rw [hst2]
            simp only [sweepStep]
            exact List.take_append_of_le_length (by omega)
          by_cases hkii : k < ii
          · rcases hgood k hkii with ⟨j, hj1, hj2⟩
            refine ⟨j, ?_, ?_⟩
            · unfold keepersAt
              rw [htake k (by omega)]
              exact hj1
            · unfold keepersAt
              rw [htake k (by omega)]
              rw [hst2]
              simp only [sweepStep]
              rw [List.getD_append _ _ _ _ (by omega)]
              exact hj2
          · have hkeq : k = ii := by omega
            subst hkeq
            have hKat : keepersAt nIn st2.order k = st.keepers := by
              unfold keepersAt
              rw [htake k (le_refl k), ← horder, List.take_length, ← hkeep]
            refine ⟨argminIdx (st.keepers.map (snr st.keepers)), ?_, ?_⟩
            · rw [hKat]
              set vals := st.keepers.map (snr st.keepers) with hvals
              have hvne : vals ≠ [] := by
                rw [hvals]
                simpa using hkne
              refine ⟨?_, ?_, ?_⟩
              · simpa [hvals] using hjlt
              · intro i hi
                rw [getD_argminIdx vals hvne]
                apply listMin_le
                rw [List.getD_eq_getElem _ _ hi]
                exact List.getElem_mem _
              · intro i hi
                rw [getD_argminIdx vals hvne]
                exact argminIdx_first vals i hi
            · rw [hKat, hst2]
              simp only [sweepStep]
              rw [List.getD_append_right _ _ _ _ (by omega), horder]
              simp
        by_cases hbr : 10 < ii ∧
            st2.iTots.getD (ii - 1) 0 < (95 / 100 : ℚ) * listMax st2.iTots ∧
            st2.iTots.getD ii 0 < (95 / 100 : ℚ) * listMax st2.iTots
        · rw [if_pos hbr]
          refine ⟨by omega, hitots2, hnonneg2, fun k hk =>
            hgood2 k (by omega), ?_⟩
          intro _
          rw [horder2]
          refine ⟨by omega, ?_, ?_⟩
          · rw [show ii + 1 - 2 = ii - 1 by omega]
            exact hbr.2.1
          · rw [show ii + 1 - 1 = ii by omega]
            exact hbr.2.2
        · rw [if_neg hbr]
          exact ih (ii + 1) st2 (by omega) (by omega) horder2 hkeep2
            hkeeplen2 hitots2 hnonneg2 hgood2

/-- C5: the internal regularization sweep of regularize_in (i) removes at
each performed iteration exactly the first surviving internal moment of
lowest estimated SNR; (ii) returns as in_removes the prefix of the removal
order up to the first index whose cumulative information reaches 98 percent
of the maximum information observed over the sweep (that threshold index
exists, lies below n_in, meets the threshold, and every earlier index lies
strictly below it) -- the same selection rule regardless of how many
candidates the sweep evaluated; and (iii) stops before exhausting all n_in
candidates only once past 10 removals with the last two information values
both below 95 percent of the maximum, the early stop thus changing only how
many candidates are evaluated, never the 98 percent selection criterion. -/
theorem c5_regularize_in_sweep (snr : List Nat → Nat → ℚ) (lg : ℚ → ℚ)
    (int_order ext_order : Nat) (magAny : Bool) (hord : 0 < int_order)
    (hsnr : ∀ K k, 0 ≤ snr K k) (hlg : ∀ q, 1 ≤ q → 0 ≤ lg q) :
    (∀ k, k < (sweepFinal snr lg int_order).order.length →
      StepSpec snr (get_n_moments int_order)
        (sweepFinal snr lg int_order).order k) ∧
    (regularize_in snr lg int_order ext_order magAny).1
      = (sweepFinal snr lg int_order).order.take
          (firstIdxGe
            ((98 / 100 : ℚ) * listMax (sweepFinal snr lg int_order).iTots)
            (sweepFinal snr lg int_order).iTots) ∧
    firstIdxGe ((98 / 100 : ℚ) * listMax (sweepFinal snr lg int_order).iTots)
        (sweepFinal snr lg int_order).iTots < get_n_moments int_order ∧
    (98 / 100 : ℚ) * listMax (sweepFinal snr lg int_order).iTots
      ≤ (sweepFinal snr lg int_order).iTots.getD
          (firstIdxGe
            ((98 / 100 : ℚ) * listMax (sweepFinal snr lg int_order).iTots)
            (sweepFinal snr lg int_order).iTots) 0 ∧
    (∀ jj, jj < firstIdxGe
        ((98 / 100 : ℚ) * listMax (sweepFinal snr lg int_order).iTots)
        (sweepFinal snr lg int_order).iTots →
      (sweepFinal snr lg int_order).iTots.getD jj 0
        < (98 / 100 : ℚ) * listMax (sweepFinal snr lg int_order).iTots) ∧
    ((sweepFinal snr lg int_order).order.length < get_n_moments int_order →
      10 < (sweepFinal snr lg int_order).order.length - 1 ∧
      (sweepFinal snr lg int_order).iTots.getD
          ((sweepFinal snr lg int_order).order.length - 2) 0
        < (95 / 100 : ℚ) * listMax (sweepFinal snr lg int_order).iTots ∧
      (sweepFinal snr lg int_order).iTots.getD
          ((sweepFinal snr lg int_order).order.length - 1) 0
        < (95 / 100 : ℚ) * listMax (sweepFinal snr lg int_order).iTots) := by
  have hnin : 0 < get_n_moments int_order := by
    unfold get_n_moments
    have h1 : 1 * 1 ≤ int_order * (int_order + 2) :=
      Nat.mul_le_mul hord (by omega)
    omega
  have hdrop : (List.range (get_n_moments int_order)).drop 0
      = List.range (get_n_moments int_order) := List.drop_zero _
  have hmaster := sweepRun_master snr lg hsnr hlg (get_n_moments int_order)
    (get_n_moments int_order) 0
    { keepers := List.range (get_n_moments int_order), order := [],
      iTots := List.replicate (get_n_moments int_order) 0 }
    (by omega) (by omega) rfl
    ((List.filter_eq_self.mpr (by simp)).symm)
    (by simp) (by simp)
    (fun j => by rw [getD_replicate_zero])
    (fun k hk => absurd hk (by omega))
  rw [hdrop] at hmaster
  have hF : sweepRun snr lg (List.range (get_n_moments int_order))
      { keepers := List.range (get_n_moments int_order), order := [],
        iTots := List.replicate (get_n_moments int_order) 0 }
      = sweepFinal snr lg int_order := rfl
  rw [hF] at hmaster
  rcases hmaster with ⟨hlen, hilen, hnn, hstep, hbreak⟩
  have hne : (sweepFinal snr lg int_order).iTots ≠ [] := by
    intro h
    rw [h] at hilen
    simp at hilen
    omega
  have hmem_nonneg : ∀ x ∈ (sweepFinal snr lg int_order).iTots, 0 ≤ x := by
    intro x hx
    rcases List.mem_iff_getElem.mp hx with ⟨idx, hidx, rfl⟩
    rw [← List.getD_eq_getElem _ 0 hidx]
    exact hnn idx
  have hmax_nonneg : 0 ≤ listMax (sweepFinal snr lg int_order).iTots :=
    hmem_nonneg _ (listMax_mem _ hne)
  have hlim_lt : firstIdxGe
      ((98 / 100 : ℚ) * listMax (sweepFinal snr lg int_order).iTots)
      (sweepFinal snr lg int_order).iTots
      < (sweepFinal snr lg int_order).iTots.length := by
    apply firstIdxGe_lt_of_mem
    exact ⟨listMax (sweepFinal snr lg int_order).iTots, listMax_mem _ hne,
      by linarith⟩
  refine ⟨hstep, rfl, ?_, ?_, ?_, ?_⟩
  · rw [← hilen]
    exact hlim_lt
  · exact getD_firstIdxGe _ _ hlim_lt
  · intro jj hjj
    exact firstIdxGe_lt_thr _ _ jj hjj
  · exact hbreak

/-- Constant SNR oracle used by the C5 witness. -/
def snrW : List Nat → Nat → ℚ := fun _ _ => 1

/-- Zero-valued stand-in for log2 used by the C5 witness. -/
def lgW : ℚ → ℚ := fun _ => 0

/-- Witness for C5 at the constant oracle, internal and external order 1. -/
theorem c5_regularize_in_sweep_witness :
    ((0 : Nat) < 1 ∧ (∀ (K : List Nat) (k : Nat), (0 : ℚ) ≤ snrW K k) ∧
      (∀ q : ℚ, 1 ≤ q → 0 ≤ lgW q)) ∧
    ((∀ k, k < (sweepFinal snrW lgW 1).order.length →
      StepSpec snrW (get_n_moments 1) (sweepFinal snrW lgW 1).order k) ∧
    (regularize_in snrW lgW 1 1 false).1
      = (sweepFinal snrW lgW 1).order.take
          (firstIdxGe ((98 / 100 : ℚ) * listMax (sweepFinal snrW lgW 1).iTots)
            (sweepFinal snrW lgW 1).iTots) ∧
    firstIdxGe ((98 / 100 : ℚ) * listMax (sweepFinal snrW lgW 1).iTots)
        (sweepFinal snrW lgW 1).iTots < get_n_moments 1 ∧
    (98 / 100 : ℚ) * listMax (sweepFinal snrW lgW 1).iTots
      ≤ (sweepFinal snrW lgW 1).iTots.getD
          (firstIdxGe ((98 / 100 : ℚ) * listMax (sweepFinal snrW lgW 1).iTots)
            (sweepFinal snrW lgW 1).iTots) 0 ∧
    (∀ jj, jj < firstIdxGe
        ((98 / 100 : ℚ) * listMax (sweepFinal snrW lgW 1).iTots)
        (sweepFinal snrW lgW 1).iTots →
      (sweepFinal snrW lgW 1).iTots.getD jj 0
        < (98 / 100 : ℚ) * listMax (sweepFinal snrW lgW 1).iTots) ∧
    ((sweepFinal snrW lgW 1).order.length < get_n_moments 1 →
      10 < (sweepFinal snrW lgW 1).order.length - 1 ∧
      (sweepFinal snrW lgW 1).iTots.getD
          ((sweepFinal snrW lgW 1).order.length - 2) 0
        < (95 / 100 : ℚ) * listMax (sweepFinal snrW lgW 1).iTots ∧
      (sweepFinal snrW lgW 1).iTots.getD
          ((sweepFinal snrW lgW 1).order.length - 1) 0
        < (95 / 100 : ℚ) * listMax (sweepFinal snrW lgW 1).iTots)) :=
  ⟨⟨Nat.one_pos, fun _ _ => zero_le_one, fun _ _ => le_refl 0⟩,
    c5_regularize_in_sweep snrW lgW 1 1 false Nat.one_pos
      (fun _ _ => zero_le_one) (fun _ _ => le_refl 0)⟩

lemma range_three_map_add (m : Nat) :
    (List.range 3).map (fun i => i + m) = [m, m + 1, m + 2] := by
  rw [show List.range 3 = [0, 1, 2] from rfl]
  simp [Nat.add_comm]

lemma regularize_out_eq (int_order ext_order : Nat) (magAny : Bool) :
    regularize_out int_order ext_order magAny
      = (if magAny then []
          else [get_n_moments int_order, get_n_moments int_order + 1,
            get_n_moments int_order + 2]) := by
  cases magAny
  · unfold regularize_out
    rw [if_neg Bool.false_ne_true, if_neg Bool.false_ne_true]
    exact range_three_map_add _
  · unfold regularize_out
    rw [if_pos rfl, if_pos rfl]
    rfl

/-- C7: the external regularization removes exactly the three lowest
external moments -- the degree-one terms at combined column indices n_in,
n_in + 1, n_in + 2 -- when no sensor is magnetometer-or-fine, and removes
none when at least one sensor carries that flag; the retained external
moments are correspondingly the full external range or the range starting
at n_in + 3.  This holds identically with regularize enabled (the in path,
whose out_removes comes from the same regularize_out call inside
regularize_in) and with regularize disabled. -/
theorem c7_external_regularization (reg : Bool) (snr : List Nat → Nat → ℚ)
    (lg : ℚ → ℚ) (int_order ext_order : Nat) (magAny : Bool)
    (hext : 0 < ext_order) :
    ((if reg then (regularize_in snr lg int_order ext_order magAny).2
        else regularize_out int_order ext_order magAny)
      = (if magAny then []
          else [get_n_moments int_order, get_n_moments int_order + 1,
            get_n_moments int_order + 2])) ∧
    (magAny = true →
      (regularizeMoments reg snr lg int_order ext_order magAny).2
        = List.range' (get_n_moments int_order) (get_n_moments ext_order)) ∧
    (magAny = false →
      (regularizeMoments reg snr lg int_order ext_order magAny).2
        = List.range' (get_n_moments int_order + 3)
            (get_n_moments ext_order - 3)) := by
  have hsame : (if reg then (regularize_in snr lg int_order ext_order magAny).2
      else regularize_out int_order ext_order magAny)
      = regularize_out int_order ext_order magAny := by
    cases reg
    · rw [if_neg Bool.false_ne_true]
    · rw [if_pos rfl]
      rfl
  have h3le : 3 ≤ get_n_moments ext_order := by
    unfold get_n_moments
    have h1 : 1 * 3 ≤ ext_order * (ext_order + 2) :=
      Nat.mul_le_mul hext (by omega)
    omega
  have hmom2 : (regularizeMoments reg snr lg int_order ext_order magAny).2
      = (List.range' (get_n_moments int_order)
          (get_n_moments ext_order)).filter
        (fun k => decide (k ∉ regularize_out int_order ext_order magAny)) := by
    unfold regularizeMoments
    cases reg
    · rfl
    · rfl
  refine ⟨by rw [hsame, regularize_out_eq], ?_, ?_⟩
  · intro hmag
    rw [hmom2, regularize_out_eq, if_pos hmag]
    rw [List.filter_eq_self]
    intro a _
    simp
  · intro hmag
    rw [hmom2, regularize_out_eq, if_neg (by rw [hmag]; exact
      Bool.false_ne_true)]
    have hsplit : List.range' (get_n_moments int_order)
        (get_n_moments ext_order)
        = List.range' (get_n_moments int_order) 3 ++
          List.range' (get_n_moments int_order + 3)
            (get_n_moments ext_order - 3) := by
      have h := List.range'_append (get_n_moments int_order) 3
        (get_n_moments ext_order - 3) 1
      rw [show get_n_moments int_order + 1 * 3
          = get_n_moments int_order + 3 by omega] at h
      rw [show get_n_moments ext_order - 3 + 3
          = get_n_moments ext_order by omega] at h
      exact h.symm
    rw [hsplit, List.filter_append]
    have hfirst : (List.range' (get_n_moments int_order) 3).filter
        (fun k => decide (k ∉ [get_n_moments int_order,
          get_n_moments int_order + 1, get_n_moments int_order + 2]))
        = [] := by
      rw [show List.range' (get_n_moments int_order) 3
          = [get_n_moments int_order, get_n_moments int_order + 1,
            get_n_moments int_order + 2] by
        rw [show (3 : Nat) = 2 + 1 from rfl, List.range'_succ,
          show (2 : Nat) = 1 + 1 from rfl, List.range'_succ,
          show (1 : Nat) = 0 + 1 from rfl, List.range'_succ]
        norm_num]
      simp
    have hsecond : (List.range' (get_n_moments int_order + 3)
        (get_n_moments ext_order - 3)).filter
        (fun k => decide (k ∉ [get_n_moments int_order,
          get_n_moments int_order + 1, get_n_moments int_order + 2]))
        = List.range' (get_n_moments int_order + 3)
            (get_n_moments ext_order - 3) := by
      rw [List.filter_eq_self]
      intro a ha
      have := List.mem_range'_1.mp ha
      simp only [List.mem_cons, List.not_mem_nil, or_false,
        decide_eq_true_eq]
      push_neg
      omega
    rw [hfirst, hsecond, List.nil_append]

/-- Witness for C7 at regularize disabled, internal order 2 (n_in = 8),
external order 1 (n_out = 3), with and without the mag-or-fine flag. -/
theorem c7_external_regularization_witness :
    (0 : Nat) < 1 ∧
    (((if false then (regularize_in snrW lgW 2 1 false).2
        else regularize_out 2 1 false)
      = (if false then []
          else [get_n_moments 2, get_n_moments 2 + 1, get_n_moments 2 + 2])) ∧
    (false = true →
      (regularizeMoments false snrW lgW 2 1 false).2
        = List.range' (get_n_moments 2) (get_n_moments 1)) ∧
    (false = false →
      (regularizeMoments false snrW lgW 2 1 false).2
        = List.range' (get_n_moments 2 + 3) (get_n_moments 1 - 3))) :=
  ⟨Nat.one_pos,
    c7_external_regularization false snrW lgW 2 1 false Nat.one_pos⟩

end MaxwellSpec
